import Mathlib

/-!
# Connection-tracking aggregators (`pkg/pipeline/conntrack/aggregator.go`)

A shallow embedding of the four aggregators (sum, count, min, max) of the
conntrack path, together with the float64 arithmetic they rely on, and of the
per-batch algorithm of the extract path that `extract_aggregate_test.go`
exercises.

## float64

Go's `float64` is IEEE-754 binary64.  A value is either a NaN (all NaN payloads
are identified) or a sign together with the 63 low bits of its bit pattern,
the *magnitude pattern*: biased exponent in bits 52..62 and fraction in bits
0..51.  The magnitude pattern of a finite value is below `0x7FF0000000000000`,
which is the pattern of infinity; the order of the patterns is the order of the
absolute values.
-/

namespace Conntrack

/-- The magnitude pattern of infinity, `0x7FF0000000000000`. -/
def infMag : Nat := 0x7FF0000000000000

/-- The magnitude pattern of the largest finite float64, `0x7FEFFFFFFFFFFFFF`. -/
def maxMag : Nat := 0x7FEFFFFFFFFFFFFF

/-- Go's `float64`: a NaN, or a sign bit and a magnitude pattern up to infinity's. -/
inductive Float64 where
  | nan
  | num (neg : Bool) (mag : Fin (infMag + 1))
  deriving DecidableEq

namespace Float64

/-- The constant `0` (positive zero). -/
def zero : Float64 := num false ⟨0, by decide⟩

/-- The constant `1`, bit pattern `0x3FF0000000000000`. -/
def one : Float64 := num false ⟨0x3FF0000000000000, by decide⟩

/-- Go's `math.MaxFloat64`, bit pattern `0x7FEFFFFFFFFFFFFF`. -/
def MaxFloat64 : Float64 := num false ⟨maxMag, by decide⟩

/-- Go's `math.Inf(sign)`: positive infinity for `neg = false`, negative otherwise. -/
def Inf (neg : Bool) : Float64 := num neg ⟨infMag, by decide⟩

/-- Unary minus: flips the sign bit. -/
def neg : Float64 → Float64
  | nan => nan
  | num s m => num (!s) m

instance : Neg Float64 := ⟨neg⟩

/-- Go's `math.IsNaN`. -/
def IsNaN : Float64 → Bool
  | nan => true
  | num _ _ => false

/-- Go's `math.IsInf(f, sign)` for `sign = -1` (`neg = true`) and `sign = 1`. -/
def IsInf : Float64 → Bool → Bool
  | nan, _ => false
  | num s m, neg => s == neg && m.val == infMag

/-- Go's `math.Signbit`. -/
def Signbit : Float64 → Bool
  | nan => false
  | num s _ => s

/-- The position of a non-NaN value in the numeric order: the magnitude
pattern with the sign applied (both zeros sit at 0). -/
def key : Float64 → Int
  | nan => 0
  | num s m => if s then -(m.val : Int) else (m.val : Int)

/-- Go's `x < y` on float64: false when either side is NaN. -/
def lt (x y : Float64) : Bool :=
  !x.IsNaN && !y.IsNaN && decide (x.key < y.key)

/-- Go's `x > y` on float64. -/
def gt (x y : Float64) : Bool := lt y x

/-- Go's `x == y` on float64: false when either side is NaN, true for `0 == -0`. -/
def eq (x y : Float64) : Bool :=
  !x.IsNaN && !y.IsNaN && decide (x.key = y.key)

/-- Go's `x <= y` on float64. -/
def le (x y : Float64) : Bool :=
  !x.IsNaN && !y.IsNaN && decide (x.key ≤ y.key)

/-- Go's `x >= y` on float64. -/
def ge (x y : Float64) : Bool := le y x

/-- The exact absolute value of a finite magnitude pattern, in units of
`2^-1074` (the smallest subnormal). -/
def magToUnits (mag : Nat) : Nat :=
  let e := mag / 2 ^ 52
  let f := mag % 2 ^ 52
  if e = 0 then f else (2 ^ 52 + f) * 2 ^ (e - 1)

/-- Floor of the binary logarithm of `n` for `0 < n < 2^4096`, by bisection on
the exponent: the largest `k` with `2^k ≤ n`. -/
def log2 (n : Nat) : Nat :=
  [2048, 1024, 512, 256, 128, 64, 32, 16, 8, 4, 2, 1].foldl
    (fun k b => if 2 ^ (k + b) ≤ n then k + b else k) 0

/-- Rounds an exact absolute value, in units of `2^-1074`, to the magnitude
pattern of the nearest float64, ties to even, overflowing to infinity. -/
def roundUnits (n : Nat) : Nat :=
  if n < 2 ^ 53 then n
  else
    let k := log2 n - 52
    let q := n / 2 ^ k
    let r := n % 2 ^ k
    let q' := if 2 ^ k < 2 * r ∨ (2 * r = 2 ^ k ∧ q % 2 = 1) then q + 1 else q
    k * 2 ^ 52 + q'

/-- Go's `x + y` on float64 (IEEE-754 addition, round to nearest even). -/
def add : Float64 → Float64 → Float64
  | nan, _ => nan
  | _, nan => nan
  | num s1 m1, num s2 m2 =>
    if m1.val = infMag then
      if m2.val = infMag ∧ s1 ≠ s2 then nan else num s1 m1
    else if m2.val = infMag then num s2 m2
    else
      let a : Int := if s1 then -(magToUnits m1.val : Int) else (magToUnits m1.val : Int)
      let b : Int := if s2 then -(magToUnits m2.val : Int) else (magToUnits m2.val : Int)
      let exact : Int := a + b
      if exact = 0 then num (s1 && s2) ⟨0, by decide⟩
      else num (decide (exact < 0))
        ⟨min (roundUnits exact.natAbs) infMag, Nat.lt_succ_of_le (Nat.min_le_right _ _)⟩

instance : Add Float64 := ⟨add⟩

/-- Go's `math.Min`. -/
def Min (x y : Float64) : Float64 :=
  if x.IsInf true || y.IsInf true then Inf true
  else if x.IsNaN || y.IsNaN then nan
  else if x.eq zero && x.eq y then (if x.Signbit then x else y)
  else if x.lt y then x
  else y

/-- Go's `math.Max`. -/
def Max (x y : Float64) : Float64 :=
  if x.IsInf false || y.IsInf false then Inf false
  else if x.IsNaN || y.IsNaN then nan
  else if x.eq zero && x.eq y then (if x.Signbit then y else x)
  else if x.gt y then x
  else y

end Float64

/-!
## Data model
-/

/-- The fields of `api.OutputField` that `NewAggregator` reads. -/
structure OutputField where
  Name : String
  SplitAB : Bool
  Operation : String
  Input : String
  deriving DecidableEq

/-- Modelled from the spec: the type `direction` (declared outside
`aggregator.go`), the enumeration {AB, BA, NA} of §3: `dirAB` is the
connection's first-observed direction, `dirBA` its reverse, `dirNA` undirected. -/
inductive direction where
  | dirNA
  | dirAB
  | dirBA
  deriving DecidableEq

/-- A `config.GenericMap`, Go's `map[string]interface{}`: a partial mapping from
field names to values of the record's value type `V`. -/
abbrev GenericMap (V : Type) := String → Option V

/-- Modelled from the spec: the connection collaborator (its implementation is
outside `aggregator.go`).  §3 describes its aggregate state as a mapping from
output field name to float accumulator, and §6 gives it an identity accessor
(`Hash`), a field-initialization operation (`addAgg`) and an accumulator-update
operation taking a transform function (`updateAggValue`). -/
structure connection where
  hashTotal : String
  aggFields : String → Option Float64

namespace connection

/-- Modelled from the spec: `conn.addAgg(fieldName, initValue)` of the
connection collaborator: the entry `fieldName` is inserted at `initValue`. -/
def addAgg (conn : connection) (fieldName : String) (initValue : Float64) : connection :=
  { conn with aggFields := fun k => if k = fieldName then some initValue else conn.aggFields k }

/-- Modelled from the spec: `conn.updateAggValue(fieldName, newValueFn)` of the
connection collaborator: the accumulator of `fieldName` is replaced by
`newValueFn` of its current value. -/
def updateAggValue (conn : connection) (fieldName : String)
    (newValueFn : Float64 → Float64) : connection :=
  { conn with
    aggFields := fun k =>
      if k = fieldName then (conn.aggFields k).map newValueFn else conn.aggFields k }

end connection

/-- The struct `aggregateBase`. -/
structure aggregateBase where
  inputField : String
  outputField : String
  splitAB : Bool
  initVal : Float64
  deriving DecidableEq

/-- The struct `aggregateSum`, which embeds `aggregateBase`. -/
structure aggregateSum extends aggregateBase
  deriving DecidableEq

/-- The struct `aggregateCount`, which embeds `aggregateBase`. -/
structure aggregateCount extends aggregateBase
  deriving DecidableEq

/-- The struct `aggregateMin`, which embeds `aggregateBase`. -/
structure aggregateMin extends aggregateBase
  deriving DecidableEq

/-- The struct `aggregateMax`, which embeds `aggregateBase`. -/
structure aggregateMax extends aggregateBase
  deriving DecidableEq

/-- The interface `aggregator`: a value of one of the four types that
implement it. -/
inductive aggregator where
  | sum (agg : aggregateSum)
  | count (agg : aggregateCount)
  | min (agg : aggregateMin)
  | max (agg : aggregateMax)
  deriving DecidableEq

/-- The errors `NewAggregator` returns (`fmt.Errorf("empty name %v", of)` and
`fmt.Errorf("unknown operation: %q", of.Operation)`). -/
inductive NewAggregatorError where
  | emptyName (of : OutputField)
  | unknownOperation (operation : String)
  deriving DecidableEq

/-- The errors `getInputFieldValue` returns (`fmt.Errorf("missing field %v", ..)`
and `fmt.Errorf("cannot convert %v to float64: %w", rawValue, err)`). -/
inductive InputFieldError (V : Type) where
  | missingField (inputField : String)
  | cannotConvert (rawValue : V)

/-- The abort of `log.Panicf("splitAB aggregator %v cannot determine outputField
because direction is missing. Check configuration.", outputField)`. -/
inductive Panic where
  | directionMissing (outputField : String)
  deriving DecidableEq

/-- A line written by `log.Errorf("error updating connection %v: %v", hash, err)`. -/
structure ErrorLog (V : Type) where
  hashTotal : String
  err : InputFieldError V

/-!
## Operations
-/

/-- `NewAggregator(of)`. -/
def NewAggregator (of : OutputField) : Except NewAggregatorError aggregator :=
  if of.Name = "" then
    .error (.emptyName of)
  else
    let inputField : String := if of.Input ≠ "" then of.Input else of.Name
    let aggBase : aggregateBase :=
      { inputField := inputField, outputField := of.Name, splitAB := of.SplitAB,
        initVal := Float64.zero }
    if of.Operation = "sum" then
      .ok (.sum ⟨{ aggBase with initVal := Float64.zero }⟩)
    else if of.Operation = "count" then
      .ok (.count ⟨{ aggBase with initVal := Float64.zero }⟩)
    else if of.Operation = "min" then
      .ok (.min ⟨{ aggBase with initVal := Float64.MaxFloat64 }⟩)
    else if of.Operation = "max" then
      .ok (.max ⟨{ aggBase with initVal := -Float64.MaxFloat64 }⟩)
    else
      .error (.unknownOperation of.Operation)

namespace aggregateBase

/-- `agg.getOutputField(d)`: the output field name, or the abort of `log.Panicf`
when a splitAB aggregator is given a direction that is neither AB nor BA. -/
def getOutputField (agg : aggregateBase) (d : direction) : Except Panic String :=
  let outputField := agg.outputField
  if agg.splitAB then
    match d with
    | .dirAB => .ok (outputField ++ "_AB")
    | .dirBA => .ok (outputField ++ "_BA")
    | _ => .error (.directionMissing outputField)
  else
    .ok outputField

/-- `agg.addField(conn)`. -/
def addField (agg : aggregateBase) (conn : connection) : Except Panic connection :=
  if agg.splitAB then do
    let conn := conn.addAgg (← agg.getOutputField .dirAB) agg.initVal
    let conn := conn.addAgg (← agg.getOutputField .dirBA) agg.initVal
    pure conn
  else do
    let conn := conn.addAgg (← agg.getOutputField .dirNA) agg.initVal
    pure conn

/-- `agg.getInputFieldValue(flowLog)`; `ConvertToFloat64` is
`utils.ConvertToFloat64`, which lives outside `aggregator.go`: `none` stands for
a non-nil error. -/
def getInputFieldValue {V : Type} (ConvertToFloat64 : V → Option Float64)
    (agg : aggregateBase) (flowLog : GenericMap V) : Except (InputFieldError V) Float64 :=
  match flowLog agg.inputField with
  | none => .error (.missingField agg.inputField)
  | some rawValue =>
    match ConvertToFloat64 rawValue with
    | none => .error (.cannotConvert rawValue)
    | some floatValue => .ok floatValue

/-- Whether a record of direction `d` is attributed to `outputField`, that is,
whether `getOutputField(d)` resolves to it. -/
def attributes (agg : aggregateBase) (outputField : String) (d : direction) : Bool :=
  match agg.getOutputField d with
  | .ok o => o == outputField
  | .error _ => false

/-- The valid values `outputField` has seen in the run `recs`: the input values,
in arrival order, of the records attributed to `outputField` whose input field
`getInputFieldValue` reads as a number. -/
def validValues {V : Type} (ConvertToFloat64 : V → Option Float64)
    (agg : aggregateBase) (outputField : String)
    (recs : List (GenericMap V × direction)) : List Float64 :=
  (recs.filter (fun r => agg.attributes outputField r.2)).filterMap
    (fun r => (agg.getInputFieldValue ConvertToFloat64 r.1).toOption)

end aggregateBase

/-- `aggregateSum.update`: the connection after the call together with the line
logged by `log.Errorf`, if any, or the abort of `getOutputField`. -/
def aggregateSum.update {V : Type} (ConvertToFloat64 : V → Option Float64)
    (agg : aggregateSum) (conn : connection) (flowLog : GenericMap V) (d : direction) :
    Except Panic (connection × Option (ErrorLog V)) := do
  let outputField ← agg.getOutputField d
  match agg.getInputFieldValue ConvertToFloat64 flowLog with
  | .error err => pure (conn, some ⟨conn.hashTotal, err⟩)
  | .ok v => pure (conn.updateAggValue outputField (fun curr => curr + v), none)

/-- `aggregateCount.update`. -/
def aggregateCount.update {V : Type}
    (agg : aggregateCount) (conn : connection) (_flowLog : GenericMap V) (d : direction) :
    Except Panic (connection × Option (ErrorLog V)) := do
  let outputField ← agg.getOutputField d
  pure (conn.updateAggValue outputField (fun curr => curr + Float64.one), none)

/-- `aggregateMin.update`. -/
def aggregateMin.update {V : Type} (ConvertToFloat64 : V → Option Float64)
    (agg : aggregateMin) (conn : connection) (flowLog : GenericMap V) (d : direction) :
    Except Panic (connection × Option (ErrorLog V)) := do
  let outputField ← agg.getOutputField d
  match agg.getInputFieldValue ConvertToFloat64 flowLog with
  | .error err => pure (conn, some ⟨conn.hashTotal, err⟩)
  | .ok v => pure (conn.updateAggValue outputField (fun curr => Float64.Min curr v), none)

/-- `aggregateMax.update`. -/
def aggregateMax.update {V : Type} (ConvertToFloat64 : V → Option Float64)
    (agg : aggregateMax) (conn : connection) (flowLog : GenericMap V) (d : direction) :
    Except Panic (connection × Option (ErrorLog V)) := do
  let outputField ← agg.getOutputField d
  match agg.getInputFieldValue ConvertToFloat64 flowLog with
  | .error err => pure (conn, some ⟨conn.hashTotal, err⟩)
  | .ok v => pure (conn.updateAggValue outputField (fun curr => Float64.Max curr v), none)

namespace aggregator

/-- The `aggregateBase` embedded in the value behind the interface. -/
def base : aggregator → aggregateBase
  | .sum agg => agg.toaggregateBase
  | .count agg => agg.toaggregateBase
  | .min agg => agg.toaggregateBase
  | .max agg => agg.toaggregateBase

/-- The interface method `addField`: all four types inherit it from
`aggregateBase`. -/
def addField (agg : aggregator) (conn : connection) : Except Panic connection :=
  agg.base.addField conn

/-- The interface method `update`, dispatched on the dynamic type. -/
def update {V : Type} (ConvertToFloat64 : V → Option Float64)
    (agg : aggregator) (conn : connection) (flowLog : GenericMap V) (d : direction) :
    Except Panic (connection × Option (ErrorLog V)) :=
  match agg with
  | .sum agg => agg.update ConvertToFloat64 conn flowLog d
  | .count agg => agg.update conn flowLog d
  | .min agg => agg.update ConvertToFloat64 conn flowLog d
  | .max agg => agg.update ConvertToFloat64 conn flowLog d

/-- Modelled from the spec: the caller of `update` (outside `aggregator.go`).
By §4.3 `update` runs once per record attributed to the connection, in arrival
order, each with the direction the connection manager supplies; an abort ends
the run. -/
def updateAll {V : Type} (ConvertToFloat64 : V → Option Float64)
    (agg : aggregator) (conn : connection) :
    List (GenericMap V × direction) → Except Panic connection
  | [] => .ok conn
  | (flowLog, d) :: rest =>
    match agg.update ConvertToFloat64 conn flowLog d with
    | .error p => .error p
    | .ok (conn', _) => updateAll ConvertToFloat64 agg conn' rest

/-- The transform function `update` hands to `updateAggValue` for the record
`flowLog`, or the identity when the update is skipped after `log.Errorf`. -/
def newValueFn {V : Type} (ConvertToFloat64 : V → Option Float64)
    (agg : aggregator) (flowLog : GenericMap V) (curr : Float64) : Float64 :=
  match agg with
  | .sum a =>
    match a.getInputFieldValue ConvertToFloat64 flowLog with
    | .error _ => curr
    | .ok v => curr + v
  | .count _ => curr + Float64.one
  | .min a =>
    match a.getInputFieldValue ConvertToFloat64 flowLog with
    | .error _ => curr
    | .ok v => Float64.Min curr v
  | .max a =>
    match a.getInputFieldValue ConvertToFloat64 flowLog with
    | .error _ => curr
    | .ok v => Float64.Max curr v

end aggregator

/-!
## The extract path
-/

/-- Modelled from the spec: an AggregateDefinition of the extract path (§3),
which is not under `src/`; the fields are the keys of the configuration of
`Test_Extract`: `name`, `by` (the groupByFields, in declared order),
`operation` and `recordkey` (the inputField). -/
structure Definition where
  Name : String
  By : List String
  Operation : String
  RecordKey : String
  deriving DecidableEq

/-- Modelled from the spec: the OperationInstance of a definition (§3) is
constructed from its name, operation and input field; the extract path never
splits by direction. -/
def Definition.toOutputField (d : Definition) : OutputField :=
  { Name := d.Name, SplitAB := false, Operation := d.Operation, Input := d.RecordKey }

/-- Modelled from the spec: a GroupAggregateEntry (§3). -/
structure GroupAggregateEntry where
  accumulatedValue : Float64
  cumulativeCount : Nat
  currentBatchRawValues : List Float64
  deriving DecidableEq

/-- Modelled from the spec: the key of a GroupAggregateEntry (§3), the pair of
the definition name and the concatenated group-key values. -/
abbrev GroupKey := String × String

/-- Modelled from the spec: the GroupAggregateCache (§2), the table from keys
to entries; a key never observed has no entry. -/
abbrev GroupAggregateCache := GroupKey → Option GroupAggregateEntry

/-- Modelled from the spec: the BatchAggregator (§2), the extractor
`NewExtractAggregate` returns in `Test_Extract`.  It holds the definitions, each
with its OperationInstance, and owns the group cache (§9). -/
structure ExtractAggregate where
  Aggregates : List (Definition × aggregator)
  cache : GroupAggregateCache

/-- Modelled from the spec: the state of one batch call (§4.2): the cache and
the keys touched during this call, in the order of their first touch. -/
structure BatchState where
  cache : GroupAggregateCache
  touched : List GroupKey

/-- Modelled from the spec: an output record of the extract path (§4.2 step 5),
with the field names `Test_Extract` expects.  `value` is accumulatedValue, and
`name_value` is the field `<name>_value`: its field name together with
accumulatedValue.  `count` is cumulativeCount.  The emitted text of `value` and
`<name>_value` is the number formatted as fixed-point text and the emitted text
of `count` is the number formatted as decimal text, a presentation step (§9)
that is not modelled, like the copies of the group-key fields. -/
structure OutputRecord where
  name : String
  record_key : String
  «by» : String
  aggregate : String
  operation : String
  value : Float64
  name_value : String × Float64
  recentRawValues : List Float64
  count : Nat
  deriving DecidableEq

/-- Modelled from the spec: the construction of the OperationInstances of the
definitions; the first configuration error of `NewAggregator` ends it. -/
def newAggregates : List Definition → Except NewAggregatorError (List (Definition × aggregator))
  | [] => .ok []
  | d :: rest =>
    match NewAggregator d.toOutputField with
    | .error e => .error e
    | .ok agg =>
      match newAggregates rest with
      | .error e => .error e
      | .ok aggs => .ok ((d, agg) :: aggs)

/-- Modelled from the spec: `NewExtractAggregate`, with the configured
definitions as its argument: the extractor starts with an empty cache. -/
def NewExtractAggregate (definitions : List Definition) :
    Except NewAggregatorError ExtractAggregate :=
  match newAggregates definitions with
  | .error e => .error e
  | .ok aggs => .ok { Aggregates := aggs, cache := fun _ => none }

/-- Modelled from the spec: groupKeyValues (§4.2 step 1), the group-by fields of
a record read in declared order, as text (`keyText`); `none` when a field is
missing. -/
def groupKeyValues {V : Type} (keyText : V → String) :
    List String → GenericMap V → Option (List String)
  | [], _ => some []
  | field :: fields, flowLog =>
    match flowLog field with
    | none => none
    | some v => (groupKeyValues keyText fields flowLog).map (fun vals => keyText v :: vals)

/-- Modelled from the spec: the key of a record for a definition (§4.2 step 2),
the definition name with the joined group-key values.  The spec does not fix
the separator of the join; `,` is used. -/
def groupKey {V : Type} (keyText : V → String) (d : Definition) (flowLog : GenericMap V) :
    Option GroupKey :=
  (groupKeyValues keyText d.By flowLog).map (fun vals => (d.Name, String.intercalate "," vals))

/-- Modelled from the spec: the numeric value an operation uses for a record
(§4.2 step 4): the sentinel 1 for count, the input value for sum, min and max,
none when the input field does not read as a number. -/
def aggregator.valueUsed {V : Type} (ConvertToFloat64 : V → Option Float64)
    (agg : aggregator) (flowLog : GenericMap V) : Option Float64 :=
  match agg with
  | .count _ => some Float64.one
  | .sum a => (a.getInputFieldValue ConvertToFloat64 flowLog).toOption
  | .min a => (a.getInputFieldValue ConvertToFloat64 flowLog).toOption
  | .max a => (a.getInputFieldValue ConvertToFloat64 flowLog).toOption

/-- Modelled from the spec: §4.2 steps 1 to 4 for one definition and one record.
A record with a missing group-by field is skipped.  Otherwise the entry of the
key is looked up, created lazily at the operation's initial value with count 0
and no raw value; its raw values are reset when this is the first touch of the
key in the batch; the operation is applied to accumulatedValue as `update`
applies it (a failed numeric read leaves it unchanged), the value used, if any,
is appended to the raw values, and cumulativeCount is incremented. -/
def updateEntry {V : Type} (ConvertToFloat64 : V → Option Float64) (keyText : V → String)
    (d : Definition) (agg : aggregator) (st : BatchState) (flowLog : GenericMap V) :
    BatchState :=
  match groupKey keyText d flowLog with
  | none => st
  | some key =>
    let found : GroupAggregateEntry := (st.cache key).getD ⟨agg.base.initVal, 0, []⟩
    let raw : List Float64 := if key ∈ st.touched then found.currentBatchRawValues else []
    let entry : GroupAggregateEntry :=
      { accumulatedValue := agg.newValueFn ConvertToFloat64 flowLog found.accumulatedValue,
        cumulativeCount := found.cumulativeCount + 1,
        currentBatchRawValues := raw ++ (agg.valueUsed ConvertToFloat64 flowLog).toList }
    { cache := fun k => if k = key then some entry else st.cache k,
      touched := if key ∈ st.touched then st.touched else st.touched ++ [key] }

/-- Modelled from the spec: the output record of a touched entry (§4.2 step 5). -/
def synthesize (d : Definition) (key : GroupKey) (entry : GroupAggregateEntry) : OutputRecord :=
  { name := d.Name, record_key := d.RecordKey, «by» := String.intercalate "," d.By,
    aggregate := key.2, operation := d.Operation, value := entry.accumulatedValue,
    name_value := (d.Name ++ "_value", entry.accumulatedValue),
    recentRawValues := entry.currentBatchRawValues, count := entry.cumulativeCount }

namespace ExtractAggregate

/-- Modelled from the spec: the cache and the touched keys after the records of
a batch went through every definition (§4.2 steps 1 to 4: for each definition,
for each record). -/
def consume {V : Type} (ConvertToFloat64 : V → Option Float64) (keyText : V → String)
    (ea : ExtractAggregate) (batch : List (GenericMap V)) : BatchState :=
  ea.Aggregates.foldl
    (fun st da => batch.foldl (updateEntry ConvertToFloat64 keyText da.1 da.2) st)
    { cache := ea.cache, touched := [] }

/-- Modelled from the spec: `Extract(batch)`, the per-batch algorithm of §4.2:
the extractor with the cache after the batch, and one output record for every
entry touched during the call, definition by definition. -/
def Extract {V : Type} (ConvertToFloat64 : V → Option Float64) (keyText : V → String)
    (ea : ExtractAggregate) (batch : List (GenericMap V)) :
    ExtractAggregate × List OutputRecord :=
  let st := ea.consume ConvertToFloat64 keyText batch
  ({ ea with cache := st.cache },
    ea.Aggregates.flatMap (fun da =>
      (st.touched.filter (fun key => key.1 == da.1.Name)).filterMap
        (fun key => (st.cache key).map (synthesize da.1 key))))

/-- Modelled from the spec: successive `Extract` calls on one extractor, one
per batch; the extractor after the last call. -/
def ExtractAll {V : Type} (ConvertToFloat64 : V → Option Float64) (keyText : V → String)
    (ea : ExtractAggregate) : List (List (GenericMap V)) → ExtractAggregate
  | [] => ea
  | batch :: rest =>
    ExtractAll ConvertToFloat64 keyText (ea.Extract ConvertToFloat64 keyText batch).1 rest

end ExtractAggregate

/-- What a batch state shows of one key: its entry, and whether the key was
touched during the call. -/
def BatchState.view (st : BatchState) (k : GroupKey) : Option GroupAggregateEntry × Bool :=
  (st.cache k, decide (k ∈ st.touched))

/-- What `updateEntry` does to the key of the record, in terms of what the
state shows of that key. -/
def touchEntry {V : Type} (ConvertToFloat64 : V → Option Float64) (agg : aggregator)
    (v : Option GroupAggregateEntry × Bool) (flowLog : GenericMap V) :
    Option GroupAggregateEntry × Bool :=
  let found : GroupAggregateEntry := v.1.getD ⟨agg.base.initVal, 0, []⟩
  let raw : List Float64 := if v.2 then found.currentBatchRawValues else []
  (some
    { accumulatedValue := agg.newValueFn ConvertToFloat64 flowLog found.accumulatedValue,
      cumulativeCount := found.cumulativeCount + 1,
      currentBatchRawValues := raw ++ (agg.valueUsed ConvertToFloat64 flowLog).toList },
   true)

/-- The records of `recs` that belong to the group `key` of the definition `d`,
in arrival order. -/
def groupRecords {V : Type} (keyText : V → String) (d : Definition) (key : GroupKey)
    (recs : List (GenericMap V)) : List (GenericMap V) :=
  recs.filter (fun flowLog => decide (groupKey keyText d flowLog = some key))

/-!
## Example inputs
-/

/-- The record values of the examples: a float64 or a boolean. -/
inductive Value where
  | float64 (x : Float64)
  | bool (b : Bool)
  deriving DecidableEq

/-- Modelled from the spec: `utils.ConvertToFloat64` (outside `aggregator.go`)
on the example values.  By §4.1 the numeric read accepts the floating point
representation, so a float64 is the number it already is; a boolean is none of
the numeric representations and fails. -/
def Value.ConvertToFloat64 : Value → Option Float64
  | .float64 x => some x
  | .bool _ => none

/-- The record with the single entry `field ↦ value`. -/
def singleField (field : String) (value : Value) : GenericMap Value :=
  fun k => if k = field then some value else none

/-- The connection `hash` with no aggregate field. -/
def emptyConnection (hash : String) : connection :=
  { hashTotal := hash, aggFields := fun _ => none }

/-- Go's `math.Float64frombits` on a 64-bit pattern. -/
def Float64frombits (b : Nat) : Float64 :=
  if h : b % 2 ^ 63 ≤ infMag then
    Float64.num (decide (b / 2 ^ 63 % 2 = 1)) ⟨b % 2 ^ 63, Nat.lt_succ_of_le h⟩
  else Float64.nan

/-- The strings that occur as field values in the records of `Test_Extract`:
the service names `"http"` and `"tcp"`. -/
inductive Service where
  | http
  | tcp
  deriving DecidableEq

/-- The string a service name is. -/
def Service.name : Service → String
  | .http => "http"
  | .tcp => "tcp"

/-- The field values of the records of `Test_Extract`: one of the service name
strings, or a float64. -/
inductive TestValue where
  | service (s : Service)
  | float64 (x : Float64)
  deriving DecidableEq

/-- Modelled from the spec: the numeric read of §4.1 on the values of
`Test_Extract`: a float64 is the number it already is; the strings `"http"`
and `"tcp"` are no numeric text and fail. -/
def TestValue.ConvertToFloat64 : TestValue → Option Float64
  | .float64 x => some x
  | .service _ => none

/-- Modelled from the spec: the text of a group-key value of `Test_Extract`: a
string is its own text.  The test groups by string fields only; the text of a
float64 is not modelled. -/
def TestValue.keyText : TestValue → String
  | .service s => s.name
  | .float64 _ => ""

/-- The record `{"service": service, "bytes": bytes}` of `Test_Extract`, with
`bytes` given by its bit pattern. -/
def serviceBytes (service : Service) (bytes : Nat) : GenericMap TestValue :=
  fun k =>
    if k = "service" then some (.service service)
    else if k = "bytes" then some (.float64 (Float64frombits bytes))
    else none

/-- The two definitions of the configuration of `Test_Extract`. -/
def testDefinitions : List Definition :=
  [⟨"bandwidth", ["service"], "sum", "bytes"⟩,
   ⟨"bandwidth_count", ["service"], "count", ""⟩]

/-- The input of `batch1` of `Test_Extract`: bytes 10, 20 for http and 1, 2 for tcp. -/
def batch1 : List (GenericMap TestValue) :=
  [serviceBytes .http 0x4024000000000000, serviceBytes .http 0x4034000000000000,
   serviceBytes .tcp 0x3FF0000000000000, serviceBytes .tcp 0x4000000000000000]

/-- The input of `batch2` of `Test_Extract`: bytes 30 for http and 4, 5 for tcp. -/
def batch2 : List (GenericMap TestValue) :=
  [serviceBytes .http 0x403E000000000000,
   serviceBytes .tcp 0x4010000000000000, serviceBytes .tcp 0x4014000000000000]

/-!
## Auxiliary lemmas
-/

theorem append_AB_ne_append_BA (base : String) : base ++ "_AB" ≠ base ++ "_BA" := by
  intro h
  have h2 := congrArg String.data h
  simp only [String.data_append, List.append_cancel_left_eq] at h2
  exact absurd h2 (by decide)

theorem maxMag_succ : maxMag + 1 = infMag := by decide

theorem maxMag_pos : 0 < maxMag := by decide

theorem Float64.Min_MaxFloat64 (v : Float64) (h : v ≠ Float64.Inf false) :
    Float64.Min Float64.MaxFloat64 v = v := by
  cases v with
  | nan => simp [Float64.Min, Float64.IsInf, Float64.IsNaN, Float64.MaxFloat64]
  | num s m =>
    obtain ⟨m, hm⟩ := m
    have hsucc := maxMag_succ
    have hpos := maxMag_pos
    by_cases hinf : m = infMag
    · subst hinf
      cases s
      · exact absurd rfl h
      · simp [Float64.Min, Float64.IsInf, Float64.Inf]
    · have h1 : (Float64.num s ⟨m, hm⟩).IsInf true = false := by
        simp [Float64.IsInf, hinf]
      have h2 : Float64.MaxFloat64.IsInf true = false := by
        simp [Float64.IsInf, Float64.MaxFloat64]
      have h3 : Float64.MaxFloat64.eq Float64.zero = false := by
        simp [Float64.eq, Float64.IsNaN, Float64.key, Float64.MaxFloat64, Float64.zero]
        omega
      have h4 : Float64.MaxFloat64.lt (Float64.num s ⟨m, hm⟩) = false := by
        cases s <;>
          simp [Float64.lt, Float64.IsNaN, Float64.key, Float64.MaxFloat64] <;> omega
      have h5 : Float64.MaxFloat64.IsNaN = false := rfl
      have h6 : (Float64.num s ⟨m, hm⟩).IsNaN = false := rfl
      simp [Float64.Min, h1, h2, h3, h4, h5, h6]

theorem Float64.neg_MaxFloat64 :
    -Float64.MaxFloat64 = Float64.num true ⟨maxMag, by decide⟩ := rfl

theorem Float64.Max_neg_MaxFloat64 (v : Float64) (h : v ≠ Float64.Inf true) :
    Float64.Max (-Float64.MaxFloat64) v = v := by
  rw [Float64.neg_MaxFloat64]
  cases v with
  | nan => simp [Float64.Max, Float64.IsInf, Float64.IsNaN]
  | num s m =>
    obtain ⟨m, hm⟩ := m
    have hsucc := maxMag_succ
    have hpos := maxMag_pos
    by_cases hinf : m = infMag
    · subst hinf
      cases s
      · simp [Float64.Max, Float64.IsInf, Float64.Inf]
      · exact absurd rfl h
    · have h1 : (Float64.num s ⟨m, hm⟩).IsInf false = false := by
        simp [Float64.IsInf, hinf]
      have h2 : (Float64.num true ⟨maxMag, by decide⟩).IsInf false = false := by
        simp [Float64.IsInf]
      have h3 : (Float64.num true ⟨maxMag, by decide⟩).eq Float64.zero = false := by
        simp [Float64.eq, Float64.IsNaN, Float64.key, Float64.zero]
        omega
      have h4 : (Float64.num true ⟨maxMag, by decide⟩).gt (Float64.num s ⟨m, hm⟩) = false := by
        cases s <;>
          simp [Float64.gt, Float64.lt, Float64.IsNaN, Float64.key] <;> omega
      simp [Float64.Max, h1, h2, h3, h4, Float64.IsNaN]

theorem Float64.key_bounds (s : Bool) (m : Fin (infMag + 1)) :
    -(infMag : Int) ≤ (Float64.num s m).key ∧ (Float64.num s m).key ≤ (infMag : Int) := by
  have := m.isLt
  cases s <;> simp [Float64.key] <;> omega

theorem Float64.eq_of_key_eq_neg_infMag (s : Bool) (m : Fin (infMag + 1))
    (h : (Float64.num s m).key = -(infMag : Int)) : Float64.num s m = Float64.Inf true := by
  obtain ⟨m, hm⟩ := m
  have hpos : 0 < infMag := by decide
  cases s
  · simp [Float64.key] at h
    omega
  · simp [Float64.key] at h
    have : m = infMag := by omega
    subst this
    rfl

theorem Float64.IsInf_true_iff (s : Bool) (m : Fin (infMag + 1)) :
    (Float64.num s m).IsInf true = true ↔ (Float64.num s m).key = -(infMag : Int) := by
  obtain ⟨m, hm⟩ := m
  have hpos : 0 < infMag := by decide
  cases s
  · simp [Float64.IsInf, Float64.key]
    omega
  · simp [Float64.IsInf, Float64.key]

theorem Float64.Min_spec (x y : Float64) (hx : x.IsNaN = false) (hy : y.IsNaN = false) :
    (Float64.Min x y = x ∨ Float64.Min x y = y) ∧
    (Float64.Min x y).IsNaN = false ∧
    (Float64.Min x y).key ≤ x.key ∧ (Float64.Min x y).key ≤ y.key := by
  cases x with
  | nan => simp [Float64.IsNaN] at hx
  | num s₁ m₁ =>
    cases y with
    | nan => simp [Float64.IsNaN] at hy
    | num s₂ m₂ =>
      have hb₁ := Float64.key_bounds s₁ m₁
      have hb₂ := Float64.key_bounds s₂ m₂
      have hnan : ((Float64.num s₁ m₁).IsNaN || (Float64.num s₂ m₂).IsNaN) = false := by
        simp [Float64.IsNaN]
      by_cases h₁ : (Float64.num s₁ m₁).IsInf true = true
      · have hk := (Float64.IsInf_true_iff s₁ m₁).1 h₁
        have he := Float64.eq_of_key_eq_neg_infMag s₁ m₁ hk
        have hmin : Float64.Min (Float64.num s₁ m₁) (Float64.num s₂ m₂) = Float64.Inf true := by
          simp [Float64.Min, h₁]
        rw [hmin, he]
        rw [he] at hk
        refine ⟨Or.inl rfl, rfl, le_refl _, ?_⟩
        rw [hk]; exact hb₂.1
      · by_cases h₂ : (Float64.num s₂ m₂).IsInf true = true
        · have hk := (Float64.IsInf_true_iff s₂ m₂).1 h₂
          have he := Float64.eq_of_key_eq_neg_infMag s₂ m₂ hk
          have hmin : Float64.Min (Float64.num s₁ m₁) (Float64.num s₂ m₂) = Float64.Inf true := by
            simp [Float64.Min, h₂]
          rw [hmin, he]
          rw [he] at hk
          refine ⟨Or.inr rfl, rfl, ?_, le_refl _⟩
          rw [hk]; exact hb₁.1
        · have hif : ((Float64.num s₁ m₁).IsInf true || (Float64.num s₂ m₂).IsInf true) = false := by
            simp [h₁, h₂]
          by_cases h₃ : ((Float64.num s₁ m₁).eq Float64.zero &&
              (Float64.num s₁ m₁).eq (Float64.num s₂ m₂)) = true
          · have hkk : (Float64.num s₁ m₁).key = (Float64.num s₂ m₂).key := by
              simp [Float64.eq, Float64.IsNaN] at h₃
              exact h₃.2
            by_cases h₄ : (Float64.num s₁ m₁).Signbit = true
            · have hmin : Float64.Min (Float64.num s₁ m₁) (Float64.num s₂ m₂) =
                  Float64.num s₁ m₁ := by
                simp only [Float64.Min, hif, hnan, h₃, h₄]
                simp
              rw [hmin]
              exact ⟨Or.inl rfl, rfl, le_refl _, le_of_eq hkk⟩
            · have hmin : Float64.Min (Float64.num s₁ m₁) (Float64.num s₂ m₂) =
                  Float64.num s₂ m₂ := by
                simp only [Float64.Min, hif, hnan, h₃, h₄]
                simp
              rw [hmin]
              exact ⟨Or.inr rfl, rfl, le_of_eq hkk.symm, le_refl _⟩
          · by_cases h₅ : (Float64.num s₁ m₁).lt (Float64.num s₂ m₂) = true
            · have hmin : Float64.Min (Float64.num s₁ m₁) (Float64.num s₂ m₂) =
                  Float64.num s₁ m₁ := by
                simp only [Float64.Min, hif, hnan, h₃, h₅]
                simp
              have hlt : (Float64.num s₁ m₁).key < (Float64.num s₂ m₂).key := by
                simpa [Float64.lt, Float64.IsNaN] using h₅
              rw [hmin]
              exact ⟨Or.inl rfl, rfl, le_refl _, le_of_lt hlt⟩
            · have hmin : Float64.Min (Float64.num s₁ m₁) (Float64.num s₂ m₂) =
                  Float64.num s₂ m₂ := by
                simp only [Float64.Min, hif, hnan, h₃, h₅]
                simp
              have hlt : ¬ (Float64.num s₁ m₁).key < (Float64.num s₂ m₂).key := by
                simpa [Float64.lt, Float64.IsNaN] using h₅
              rw [hmin]
              exact ⟨Or.inr rfl, rfl, le_of_not_lt hlt, le_refl _⟩

theorem Float64.eq_of_key_eq_infMag (s : Bool) (m : Fin (infMag + 1))
    (h : (Float64.num s m).key = (infMag : Int)) : Float64.num s m = Float64.Inf false := by
  obtain ⟨m, hm⟩ := m
  have hpos : 0 < infMag := by decide
  cases s
  · simp [Float64.key] at h
    have : m = infMag := by omega
    subst this
    rfl
  · simp [Float64.key] at h
    omega

theorem Float64.IsInf_false_iff (s : Bool) (m : Fin (infMag + 1)) :
    (Float64.num s m).IsInf false = true ↔ (Float64.num s m).key = (infMag : Int) := by
  obtain ⟨m, hm⟩ := m
  have hpos : 0 < infMag := by decide
  cases s
  · simp [Float64.IsInf, Float64.key]
  · simp [Float64.IsInf, Float64.key]
    omega

theorem Float64.Max_spec (x y : Float64) (hx : x.IsNaN = false) (hy : y.IsNaN = false) :
    (Float64.Max x y = x ∨ Float64.Max x y = y) ∧
    (Float64.Max x y).IsNaN = false ∧
    x.key ≤ (Float64.Max x y).key ∧ y.key ≤ (Float64.Max x y).key := by
  cases x with
  | nan => simp [Float64.IsNaN] at hx
  | num s₁ m₁ =>
    cases y with
    | nan => simp [Float64.IsNaN] at hy
    | num s₂ m₂ =>
      have hb₁ := Float64.key_bounds s₁ m₁
      have hb₂ := Float64.key_bounds s₂ m₂
      have hnan : ((Float64.num s₁ m₁).IsNaN || (Float64.num s₂ m₂).IsNaN) = false := by
        simp [Float64.IsNaN]
      by_cases h₁ : (Float64.num s₁ m₁).IsInf false = true
      · have hk := (Float64.IsInf_false_iff s₁ m₁).1 h₁
        have he := Float64.eq_of_key_eq_infMag s₁ m₁ hk
        have hmax : Float64.Max (Float64.num s₁ m₁) (Float64.num s₂ m₂) = Float64.Inf false := by
          simp [Float64.Max, h₁]
        rw [hmax, he]
        rw [he] at hk
        refine ⟨Or.inl rfl, rfl, le_refl _, ?_⟩
        rw [hk]; exact hb₂.2
      · by_cases h₂ : (Float64.num s₂ m₂).IsInf false = true
        · have hk := (Float64.IsInf_false_iff s₂ m₂).1 h₂
          have he := Float64.eq_of_key_eq_infMag s₂ m₂ hk
          have hmax : Float64.Max (Float64.num s₁ m₁) (Float64.num s₂ m₂) = Float64.Inf false := by
            simp [Float64.Max, h₂]
          rw [hmax, he]
          rw [he] at hk
          refine ⟨Or.inr rfl, rfl, ?_, le_refl _⟩
          rw [hk]; exact hb₁.2
        · have hif : ((Float64.num s₁ m₁).IsInf false || (Float64.num s₂ m₂).IsInf false) = false := by
            simp [h₁, h₂]
          by_cases h₃ : ((Float64.num s₁ m₁).eq Float64.zero &&
              (Float64.num s₁ m₁).eq (Float64.num s₂ m₂)) = true
          · have hkk : (Float64.num s₁ m₁).key = (Float64.num s₂ m₂).key := by
              simp [Float64.eq, Float64.IsNaN] at h₃
              exact h₃.2
            by_cases h₄ : (Float64.num s₁ m₁).Signbit = true
            · have hmax : Float64.Max (Float64.num s₁ m₁) (Float64.num s₂ m₂) =
                  Float64.num s₂ m₂ := by
                simp only [Float64.Max, hif, hnan, h₃, h₄]
                simp
              rw [hmax]
              exact ⟨Or.inr rfl, rfl, le_of_eq hkk, le_refl _⟩
            · have hmax : Float64.Max (Float64.num s₁ m₁) (Float64.num s₂ m₂) =
                  Float64.num s₁ m₁ := by
                simp only [Float64.Max, hif, hnan, h₃, h₄]
                simp
              rw [hmax]
              exact ⟨Or.inl rfl, rfl, le_refl _, le_of_eq hkk.symm⟩
          · by_cases h₅ : (Float64.num s₁ m₁).gt (Float64.num s₂ m₂) = true
            · have hmax : Float64.Max (Float64.num s₁ m₁) (Float64.num s₂ m₂) =
                  Float64.num s₁ m₁ := by
                simp only [Float64.Max, hif, hnan, h₃, h₅]
                simp
              have hlt : (Float64.num s₂ m₂).key < (Float64.num s₁ m₁).key := by
                simpa [Float64.gt, Float64.lt, Float64.IsNaN] using h₅
              rw [hmax]
              exact ⟨Or.inl rfl, rfl, le_refl _, le_of_lt hlt⟩
            · have hmax : Float64.Max (Float64.num s₁ m₁) (Float64.num s₂ m₂) =
                  Float64.num s₂ m₂ := by
                simp only [Float64.Max, hif, hnan, h₃, h₅]
                simp
              have hlt : ¬ (Float64.num s₂ m₂).key < (Float64.num s₁ m₁).key := by
                simpa [Float64.gt, Float64.lt, Float64.IsNaN] using h₅
              rw [hmax]
              exact ⟨Or.inr rfl, rfl, le_of_not_lt hlt, le_refl _⟩

theorem Float64.le_iff_key (x y : Float64) (hx : x.IsNaN = false) (hy : y.IsNaN = false) :
    x.le y = true ↔ x.key ≤ y.key := by
  simp [Float64.le, hx, hy]

theorem Float64.eq_MaxFloat64_of_le (v : Float64) (hv : v.IsNaN = false)
    (h : Float64.MaxFloat64.key ≤ v.key) (hinf : v ≠ Float64.Inf false) :
    v = Float64.MaxFloat64 := by
  cases v with
  | nan => simp [Float64.IsNaN] at hv
  | num s m =>
    obtain ⟨m, hm⟩ := m
    have hsucc : maxMag + 1 = infMag := by decide
    have hpos : 0 < maxMag := by decide
    have hne : ¬ (s = false ∧ m = infMag) := by
      rintro ⟨rfl, rfl⟩
      exact hinf rfl
    cases s
    · simp [Float64.key, Float64.MaxFloat64] at h
      have : m = maxMag := by
        have : m ≠ infMag := fun e => hne ⟨rfl, e⟩
        omega
      subst this
      rfl
    · simp [Float64.key, Float64.MaxFloat64] at h
      omega

theorem Float64.eq_neg_MaxFloat64_of_le (v : Float64) (hv : v.IsNaN = false)
    (h : v.key ≤ (-Float64.MaxFloat64).key) (hinf : v ≠ Float64.Inf true) :
    v = -Float64.MaxFloat64 := by
  cases v with
  | nan => simp [Float64.IsNaN] at hv
  | num s m =>
    obtain ⟨m, hm⟩ := m
    have hsucc : maxMag + 1 = infMag := by decide
    have hpos : 0 < maxMag := by decide
    have hne : ¬ (s = true ∧ m = infMag) := by
      rintro ⟨rfl, rfl⟩
      exact hinf rfl
    have hneg : -Float64.MaxFloat64 = Float64.num true ⟨maxMag, by decide⟩ := rfl
    rw [hneg] at h ⊢
    cases s
    · simp [Float64.key] at h
      omega
    · simp [Float64.key] at h
      have : m = maxMag := by
        have : m ≠ infMag := fun e => hne ⟨rfl, e⟩
        omega
      subst this
      rfl

theorem getOutputField_ok_cases (agg : aggregateBase) (d : direction) (outputField : String)
    (h : agg.getOutputField d = .ok outputField) :
    (agg.splitAB = false ∧ outputField = agg.outputField) ∨
    (agg.splitAB = true ∧ d = .dirAB ∧ outputField = agg.outputField ++ "_AB") ∨
    (agg.splitAB = true ∧ d = .dirBA ∧ outputField = agg.outputField ++ "_BA") := by
  unfold aggregateBase.getOutputField at h
  cases hs : agg.splitAB <;> cases d <;> simp_all

/-- With a resolved direction, `update` never aborts, and what it does to the
connection is a transformation of the resolved accumulator alone: the new
value of `outputField` is a function `g` of its old value, fixed by the record,
and no other entry changes. -/
theorem update_transforms {V : Type} (ConvertToFloat64 : V → Option Float64)
    (agg : aggregator) (flowLog : GenericMap V) (d : direction) (outputField : String)
    (hd : agg.base.getOutputField d = .ok outputField) :
    ∃ g : Option Float64 → Option Float64, ∀ conn : connection,
      ∃ conn' log, agg.update ConvertToFloat64 conn flowLog d = .ok (conn', log) ∧
        conn'.aggFields outputField = g (conn.aggFields outputField) ∧
        ∀ k, k ≠ outputField → conn'.aggFields k = conn.aggFields k := by
  cases agg with
  | sum a =>
    simp only [aggregator.base] at hd
    cases hv : a.getInputFieldValue ConvertToFloat64 flowLog with
    | error err =>
      refine ⟨id, fun conn => ⟨conn, some ⟨conn.hashTotal, err⟩, ?_, rfl, fun _ _ => rfl⟩⟩
      simp [aggregator.update, aggregateSum.update, hd, hv, bind, Except.bind, pure,
        Except.pure]
    | ok v =>
      refine ⟨Option.map (fun curr => curr + v), fun conn =>
        ⟨conn.updateAggValue outputField (fun curr => curr + v), none, ?_, ?_, ?_⟩⟩
      · simp [aggregator.update, aggregateSum.update, hd, hv, bind, Except.bind, pure,
          Except.pure]
      · simp [connection.updateAggValue]
      · intro k hk
        simp [connection.updateAggValue, hk]
  | count a =>
    simp only [aggregator.base] at hd
    refine ⟨Option.map (fun curr => curr + Float64.one), fun conn =>
      ⟨conn.updateAggValue outputField (fun curr => curr + Float64.one), none, ?_, ?_, ?_⟩⟩
    · simp [aggregator.update, aggregateCount.update, hd, bind, Except.bind, pure,
        Except.pure]
    · simp [connection.updateAggValue]
    · intro k hk
      simp [connection.updateAggValue, hk]
  | min a =>
    simp only [aggregator.base] at hd
    cases hv : a.getInputFieldValue ConvertToFloat64 flowLog with
    | error err =>
      refine ⟨id, fun conn => ⟨conn, some ⟨conn.hashTotal, err⟩, ?_, rfl, fun _ _ => rfl⟩⟩
      simp [aggregator.update, aggregateMin.update, hd, hv, bind, Except.bind, pure,
        Except.pure]
    | ok v =>
      refine ⟨Option.map (fun curr => Float64.Min curr v), fun conn =>
        ⟨conn.updateAggValue outputField (fun curr => Float64.Min curr v), none, ?_, ?_, ?_⟩⟩
      · simp [aggregator.update, aggregateMin.update, hd, hv, bind, Except.bind, pure,
          Except.pure]
      · simp [connection.updateAggValue]
      · intro k hk
        simp [connection.updateAggValue, hk]
  | max a =>
    simp only [aggregator.base] at hd
    cases hv : a.getInputFieldValue ConvertToFloat64 flowLog with
    | error err =>
      refine ⟨id, fun conn => ⟨conn, some ⟨conn.hashTotal, err⟩, ?_, rfl, fun _ _ => rfl⟩⟩
      simp [aggregator.update, aggregateMax.update, hd, hv, bind, Except.bind, pure,
        Except.pure]
    | ok v =>
      refine ⟨Option.map (fun curr => Float64.Max curr v), fun conn =>
        ⟨conn.updateAggValue outputField (fun curr => Float64.Max curr v), none, ?_, ?_, ?_⟩⟩
      · simp [aggregator.update, aggregateMax.update, hd, hv, bind, Except.bind, pure,
          Except.pure]
      · simp [connection.updateAggValue]
      · intro k hk
        simp [connection.updateAggValue, hk]

/-- A run of a splitAB aggregator that does not abort leaves in the field of
direction `d₀` what the run over the records of direction `d₀` alone leaves
there, from any connection that agrees on that field. -/
theorem updateAll_filter_field {V : Type} (ConvertToFloat64 : V → Option Float64)
    (agg : aggregator) (hsplit : agg.base.splitAB = true)
    (d₀ : direction) (out₀ : String) (hd₀ : agg.base.getOutputField d₀ = .ok out₀) :
    ∀ (recs : List (GenericMap V × direction)) (conn₁ conn₂ conn₁' : connection),
      conn₁.aggFields out₀ = conn₂.aggFields out₀ →
      agg.updateAll ConvertToFloat64 conn₁ recs = .ok conn₁' →
      ∃ conn₂', agg.updateAll ConvertToFloat64 conn₂
          (recs.filter (fun r => decide (r.2 = d₀))) = .ok conn₂' ∧
        conn₁'.aggFields out₀ = conn₂'.aggFields out₀ := by
  intro recs
  induction recs with
  | nil =>
    intro conn₁ conn₂ conn₁' hagree hrun
    simp only [aggregator.updateAll] at hrun
    injection hrun with hrun
    subst hrun
    exact ⟨conn₂, rfl, hagree⟩
  | cons r rest ih =>
    obtain ⟨flowLog, d⟩ := r
    intro conn₁ conn₂ conn₁' hagree hrun
    by_cases hdd : d = d₀
    · subst hdd
      obtain ⟨g, hg⟩ := update_transforms ConvertToFloat64 agg flowLog d out₀ hd₀
      obtain ⟨c₁, l₁, hu₁, hv₁, -⟩ := hg conn₁
      obtain ⟨c₂, l₂, hu₂, hv₂, -⟩ := hg conn₂
      simp only [aggregator.updateAll, hu₁] at hrun
      obtain ⟨conn₂', hrun₂, hres⟩ := ih c₁ c₂ conn₁' (by rw [hv₁, hv₂, hagree]) hrun
      refine ⟨conn₂', ?_, hres⟩
      simp only [List.filter_cons, decide_True, if_true, aggregator.updateAll, hu₂]
      exact hrun₂
    · cases hres : agg.base.getOutputField d with
      | error p =>
        have hpanic : ∃ p, agg.update ConvertToFloat64 conn₁ flowLog d = .error p := by
          cases agg <;>
            simp only [aggregator.base] at hres <;>
            simp [aggregator.update, aggregateSum.update, aggregateCount.update,
              aggregateMin.update, aggregateMax.update, hres, bind, Except.bind]
        obtain ⟨p', hp'⟩ := hpanic
        simp [aggregator.updateAll, hp'] at hrun
      | ok out =>
        have hne : out₀ ≠ out := by
          rcases getOutputField_ok_cases _ _ _ hd₀ with ⟨hs, -⟩ | ⟨-, h1, h2⟩ | ⟨-, h1, h2⟩
          · rw [hsplit] at hs; cases hs
          · rcases getOutputField_ok_cases _ _ _ hres with ⟨hs, -⟩ | ⟨-, h3, -⟩ | ⟨-, -, h4⟩
            · rw [hsplit] at hs; cases hs
            · exact absurd (h3.trans h1.symm) hdd
            · rw [h2, h4]; exact append_AB_ne_append_BA _
          · rcases getOutputField_ok_cases _ _ _ hres with ⟨hs, -⟩ | ⟨-, -, h4⟩ | ⟨-, h3, -⟩
            · rw [hsplit] at hs; cases hs
            · rw [h2, h4]; exact (append_AB_ne_append_BA _).symm
            · exact absurd (h3.trans h1.symm) hdd
        obtain ⟨g, hg⟩ := update_transforms ConvertToFloat64 agg flowLog d out hres
        obtain ⟨c₁, l₁, hu₁, -, hframe⟩ := hg conn₁
        simp only [aggregator.updateAll, hu₁] at hrun
        obtain ⟨conn₂', hrun₂, hfin⟩ :=
          ih c₁ conn₂ conn₁' (by rw [hframe out₀ hne, hagree]) hrun
        refine ⟨conn₂', ?_, hfin⟩
        simp only [List.filter_cons, hdd, decide_False]
        exact hrun₂

/-- With a resolved direction `update` returns, and the resolved accumulator
becomes `newValueFn` of its old value while every other entry stays. -/
theorem update_newValueFn {V : Type} (ConvertToFloat64 : V → Option Float64)
    (agg : aggregator) (flowLog : GenericMap V) (d : direction) (outputField : String)
    (hd : agg.base.getOutputField d = .ok outputField) (conn : connection) :
    ∃ conn' log, agg.update ConvertToFloat64 conn flowLog d = .ok (conn', log) ∧
      conn'.aggFields outputField =
        (conn.aggFields outputField).map (agg.newValueFn ConvertToFloat64 flowLog) ∧
      ∀ k, k ≠ outputField → conn'.aggFields k = conn.aggFields k := by
  cases agg with
  | sum a =>
    simp only [aggregator.base] at hd
    cases hv : a.getInputFieldValue ConvertToFloat64 flowLog with
    | error err =>
      refine ⟨conn, some ⟨conn.hashTotal, err⟩, ?_, ?_, fun _ _ => rfl⟩
      · simp [aggregator.update, aggregateSum.update, hd, hv, bind, Except.bind, pure,
          Except.pure]
      · cases conn.aggFields outputField <;> simp [aggregator.newValueFn, hv]
    | ok v =>
      refine ⟨conn.updateAggValue outputField (fun curr => curr + v), none, ?_, ?_, ?_⟩
      · simp [aggregator.update, aggregateSum.update, hd, hv, bind, Except.bind, pure,
          Except.pure]
      · cases h : conn.aggFields outputField <;>
          simp [connection.updateAggValue, aggregator.newValueFn, hv, h]
      · intro k hk
        simp [connection.updateAggValue, hk]
  | count a =>
    simp only [aggregator.base] at hd
    refine ⟨conn.updateAggValue outputField (fun curr => curr + Float64.one), none, ?_, ?_, ?_⟩
    · simp [aggregator.update, aggregateCount.update, hd, bind, Except.bind, pure,
        Except.pure]
    · cases h : conn.aggFields outputField <;>
        simp [connection.updateAggValue, aggregator.newValueFn, h]
    · intro k hk
      simp [connection.updateAggValue, hk]
  | min a =>
    simp only [aggregator.base] at hd
    cases hv : a.getInputFieldValue ConvertToFloat64 flowLog with
    | error err =>
      refine ⟨conn, some ⟨conn.hashTotal, err⟩, ?_, ?_, fun _ _ => rfl⟩
      · simp [aggregator.update, aggregateMin.update, hd, hv, bind, Except.bind, pure,
          Except.pure]
      · cases conn.aggFields outputField <;> simp [aggregator.newValueFn, hv]
    | ok v =>
      refine ⟨conn.updateAggValue outputField (fun curr => Float64.Min curr v), none,
        ?_, ?_, ?_⟩
      · simp [aggregator.update, aggregateMin.update, hd, hv, bind, Except.bind, pure,
          Except.pure]
      · cases h : conn.aggFields outputField <;>
          simp [connection.updateAggValue, aggregator.newValueFn, hv, h]
      · intro k hk
        simp [connection.updateAggValue, hk]
  | max a =>
    simp only [aggregator.base] at hd
    cases hv : a.getInputFieldValue ConvertToFloat64 flowLog with
    | error err =>
      refine ⟨conn, some ⟨conn.hashTotal, err⟩, ?_, ?_, fun _ _ => rfl⟩
      · simp [aggregator.update, aggregateMax.update, hd, hv, bind, Except.bind, pure,
          Except.pure]
      · cases conn.aggFields outputField <;> simp [aggregator.newValueFn, hv]
    | ok v =>
      refine ⟨conn.updateAggValue outputField (fun curr => Float64.Max curr v), none,
        ?_, ?_, ?_⟩
      · simp [aggregator.update, aggregateMax.update, hd, hv, bind, Except.bind, pure,
          Except.pure]
      · cases h : conn.aggFields outputField <;>
          simp [connection.updateAggValue, aggregator.newValueFn, hv, h]
      · intro k hk
        simp [connection.updateAggValue, hk]

/-- A run whose directions all resolve does not abort, and it leaves in every
field the fold of `newValueFn` over the records attributed to that field, in
arrival order, starting from the field's value before the run. -/
theorem updateAll_fold {V : Type} (ConvertToFloat64 : V → Option Float64)
    (agg : aggregator) :
    ∀ (recs : List (GenericMap V × direction)) (conn : connection),
      (∀ r ∈ recs, ∃ o, agg.base.getOutputField r.2 = .ok o) →
      ∃ conn', agg.updateAll ConvertToFloat64 conn recs = .ok conn' ∧
        ∀ out, conn'.aggFields out =
          (conn.aggFields out).map (fun acc =>
            (recs.filter (fun r => agg.base.attributes out r.2)).foldl
              (fun a r => agg.newValueFn ConvertToFloat64 r.1 a) acc) := by
  intro recs
  induction recs with
  | nil =>
    intro conn _
    refine ⟨conn, rfl, fun out => ?_⟩
    cases conn.aggFields out <;> simp
  | cons r rest ih =>
    obtain ⟨flowLog, d⟩ := r
    intro conn hres
    obtain ⟨o, ho⟩ := hres (flowLog, d) (List.mem_cons_self _ _)
    obtain ⟨c₁, log, hu, hval, hframe⟩ :=
      update_newValueFn ConvertToFloat64 agg flowLog d o ho conn
    obtain ⟨conn', hrun, hfin⟩ :=
      ih c₁ (fun r hr => hres r (List.mem_cons_of_mem _ hr))
    refine ⟨conn', ?_, fun out => ?_⟩
    · simp only [aggregator.updateAll, hu]
      exact hrun
    · rw [hfin out]
      by_cases hout : o = out
      · subst hout
        have hattr : agg.base.attributes o d = true := by
          simp [aggregateBase.attributes, ho]
        rw [hval]
        cases conn.aggFields o <;> simp [List.filter_cons, hattr]
      · have hattr : agg.base.attributes out d = false := by
          simp [aggregateBase.attributes, ho, hout]
        rw [hframe out (fun h => hout h.symm)]
        cases conn.aggFields out <;> simp [List.filter_cons, hattr]

/-- After `addField`, every field a direction resolves to holds the initial
value. -/
theorem addField_fresh (agg : aggregator) (conn₀ : connection) :
    ∃ conn, agg.addField conn₀ = .ok conn ∧
      ∀ d out, agg.base.getOutputField d = .ok out →
        conn.aggFields out = some agg.base.initVal := by
  unfold aggregator.addField aggregateBase.addField aggregateBase.getOutputField
  cases hs : agg.base.splitAB
  · refine ⟨_, rfl, fun d out hd => ?_⟩
    simp at hd
    subst hd
    simp [connection.addAgg]
  · refine ⟨_, rfl, fun d out hd => ?_⟩
    cases d <;> simp at hd <;> subst hd <;> simp [connection.addAgg]

theorem sum_foldl_newValueFn {V : Type} (ConvertToFloat64 : V → Option Float64)
    (agg : aggregateSum) :
    ∀ (recs : List (GenericMap V × direction)) (acc : Float64),
      recs.foldl (fun a r => (aggregator.sum agg).newValueFn ConvertToFloat64 r.1 a) acc =
        (recs.filterMap
          (fun r => (agg.getInputFieldValue ConvertToFloat64 r.1).toOption)).foldl
          (fun a v => a + v) acc := by
  intro recs
  induction recs with
  | nil => intro acc; rfl
  | cons r rest ih =>
    intro acc
    simp only [List.foldl_cons, List.filterMap_cons]
    rw [ih]
    cases hv : agg.getInputFieldValue ConvertToFloat64 r.1 <;>
      simp [aggregator.newValueFn, hv, Except.toOption]

theorem count_foldl_newValueFn {V : Type} (ConvertToFloat64 : V → Option Float64)
    (agg : aggregateCount) :
    ∀ (recs : List (GenericMap V × direction)) (acc : Float64),
      recs.foldl (fun a r => (aggregator.count agg).newValueFn ConvertToFloat64 r.1 a) acc =
        (fun curr => curr + Float64.one)^[recs.length] acc := by
  intro recs
  induction recs with
  | nil => intro acc; rfl
  | cons r rest ih =>
    intro acc
    simp only [List.foldl_cons, List.length_cons, Function.iterate_succ, Function.comp]
    rw [ih]
    rfl

theorem NewAggregator_ok_initVal (of : OutputField) (agg : aggregator)
    (h : NewAggregator of = .ok agg) :
    match agg with
    | .sum a => a.initVal = Float64.zero
    | .count a => a.initVal = Float64.zero
    | .min a => a.initVal = Float64.MaxFloat64
    | .max a => a.initVal = -Float64.MaxFloat64 := by
  unfold NewAggregator at h
  by_cases hn : of.Name = ""
  · simp [hn] at h
  · simp only [hn, if_false] at h
    split_ifs at h <;> injection h with h <;> subst h <;> rfl

theorem addField_ok_fields (agg : aggregator) (conn : connection) :
    ∃ conn', agg.addField conn = .ok conn' ∧ conn'.hashTotal = conn.hashTotal ∧
      ∀ k, conn'.aggFields k =
        if agg.base.splitAB then
          (if k = agg.base.outputField ++ "_AB" ∨ k = agg.base.outputField ++ "_BA"
            then some agg.base.initVal else conn.aggFields k)
        else
          (if k = agg.base.outputField then some agg.base.initVal else conn.aggFields k) := by
  unfold aggregator.addField aggregateBase.addField aggregateBase.getOutputField
  cases hs : agg.base.splitAB
  · exact ⟨_, rfl, rfl, fun k => by simp [connection.addAgg]⟩
  · refine ⟨_, rfl, rfl, fun k => ?_⟩
    by_cases hb : k = agg.base.outputField ++ "_BA"
    · simp [connection.addAgg, hb]
    · simp [connection.addAgg, hb]

theorem Float64.foldl_Min_spec (vals : List Float64) :
    ∀ acc : Float64, acc.IsNaN = false → (∀ v ∈ vals, v.IsNaN = false) →
      (vals.foldl Float64.Min acc).IsNaN = false ∧
      (vals.foldl Float64.Min acc).key ≤ acc.key ∧
      (∀ v ∈ vals, (vals.foldl Float64.Min acc).key ≤ v.key) ∧
      (vals.foldl Float64.Min acc = acc ∨ vals.foldl Float64.Min acc ∈ vals) := by
  induction vals with
  | nil =>
    intro acc hacc _
    exact ⟨hacc, le_refl _, fun v hv => by simp at hv, Or.inl rfl⟩
  | cons w rest ih =>
    intro acc hacc hvals
    have hw : w.IsNaN = false := hvals w (List.mem_cons_self _ _)
    obtain ⟨hor, hm, hk₁, hk₂⟩ := Float64.Min_spec acc w hacc hw
    obtain ⟨hf, hfk, hfall, hfor⟩ :=
      ih (Float64.Min acc w) hm (fun v hv => hvals v (List.mem_cons_of_mem _ hv))
    simp only [List.foldl_cons]
    refine ⟨hf, le_trans hfk hk₁, ?_, ?_⟩
    · intro v hv
      rcases List.mem_cons.1 hv with rfl | hv
      · exact le_trans hfk hk₂
      · exact hfall v hv
    · rcases hfor with h | h
      · rcases hor with h' | h'
        · exact Or.inl (h.trans h')
        · exact Or.inr (by rw [h, h']; exact List.mem_cons_self _ _)
      · exact Or.inr (List.mem_cons_of_mem _ h)

theorem Float64.foldl_Max_spec (vals : List Float64) :
    ∀ acc : Float64, acc.IsNaN = false → (∀ v ∈ vals, v.IsNaN = false) →
      (vals.foldl Float64.Max acc).IsNaN = false ∧
      acc.key ≤ (vals.foldl Float64.Max acc).key ∧
      (∀ v ∈ vals, v.key ≤ (vals.foldl Float64.Max acc).key) ∧
      (vals.foldl Float64.Max acc = acc ∨ vals.foldl Float64.Max acc ∈ vals) := by
  induction vals with
  | nil =>
    intro acc hacc _
    exact ⟨hacc, le_refl _, fun v hv => by simp at hv, Or.inl rfl⟩
  | cons w rest ih =>
    intro acc hacc hvals
    have hw : w.IsNaN = false := hvals w (List.mem_cons_self _ _)
    obtain ⟨hor, hm, hk₁, hk₂⟩ := Float64.Max_spec acc w hacc hw
    obtain ⟨hf, hfk, hfall, hfor⟩ :=
      ih (Float64.Max acc w) hm (fun v hv => hvals v (List.mem_cons_of_mem _ hv))
    simp only [List.foldl_cons]
    refine ⟨hf, le_trans hk₁ hfk, ?_, ?_⟩
    · intro v hv
      rcases List.mem_cons.1 hv with rfl | hv
      · exact le_trans hk₂ hfk
      · exact hfall v hv
    · rcases hfor with h | h
      · rcases hor with h' | h'
        · exact Or.inl (h.trans h')
        · exact Or.inr (by rw [h, h']; exact List.mem_cons_self _ _)
      · exact Or.inr (List.mem_cons_of_mem _ h)

theorem Float64.MaxFloat64_key_lt : Float64.MaxFloat64.key < (Float64.Inf false).key := by
  decide

theorem Float64.neg_MaxFloat64_key_gt :
    (Float64.Inf true).key < (-Float64.MaxFloat64).key := by
  decide

/-- The fold of `math.Min` from `math.MaxFloat64` over values none of which is
NaN: it is below every value, it is one of the values as soon as one of them is
not `+Inf`, and it is `math.MaxFloat64` while all of them are `+Inf`. -/
theorem Float64.foldl_Min_MaxFloat64 (vals : List Float64)
    (hvals : ∀ v ∈ vals, v.IsNaN = false) :
    (vals.foldl Float64.Min Float64.MaxFloat64).IsNaN = false ∧
    (∀ v ∈ vals, (vals.foldl Float64.Min Float64.MaxFloat64).le v = true) ∧
    ((∃ v ∈ vals, v ≠ Float64.Inf false) →
      vals.foldl Float64.Min Float64.MaxFloat64 ∈ vals) ∧
    ((∀ v ∈ vals, v = Float64.Inf false) →
      vals.foldl Float64.Min Float64.MaxFloat64 = Float64.MaxFloat64) := by
  obtain ⟨hf, hfk, hfall, hfor⟩ :=
    Float64.foldl_Min_spec vals Float64.MaxFloat64 rfl hvals
  refine ⟨hf, ?_, ?_, ?_⟩
  · intro v hv
    exact (Float64.le_iff_key _ _ hf (hvals v hv)).2 (hfall v hv)
  · rintro ⟨v, hv, hne⟩
    rcases hfor with h | h
    · have hk : Float64.MaxFloat64.key ≤ v.key := by
        have := hfall v hv
        rwa [h] at this
      have hveq := Float64.eq_MaxFloat64_of_le v (hvals v hv) hk hne
      rw [h, ← hveq]
      exact hv
    · exact h
  · intro hall
    rcases hfor with h | h
    · exact h
    · exfalso
      have hinf := hall _ h
      rw [hinf] at hfk
      exact absurd hfk (not_le.2 Float64.MaxFloat64_key_lt)

/-- The fold of `math.Max` from `-math.MaxFloat64` over values none of which is
NaN: it is above every value, it is one of the values as soon as one of them is
not `-Inf`, and it is `-math.MaxFloat64` while all of them are `-Inf`. -/
theorem Float64.foldl_Max_neg_MaxFloat64 (vals : List Float64)
    (hvals : ∀ v ∈ vals, v.IsNaN = false) :
    (vals.foldl Float64.Max (-Float64.MaxFloat64)).IsNaN = false ∧
    (∀ v ∈ vals, (vals.foldl Float64.Max (-Float64.MaxFloat64)).ge v = true) ∧
    ((∃ v ∈ vals, v ≠ Float64.Inf true) →
      vals.foldl Float64.Max (-Float64.MaxFloat64) ∈ vals) ∧
    ((∀ v ∈ vals, v = Float64.Inf true) →
      vals.foldl Float64.Max (-Float64.MaxFloat64) = -Float64.MaxFloat64) := by
  obtain ⟨hf, hfk, hfall, hfor⟩ :=
    Float64.foldl_Max_spec vals (-Float64.MaxFloat64) rfl hvals
  refine ⟨hf, ?_, ?_, ?_⟩
  · intro v hv
    exact (Float64.le_iff_key _ _ (hvals v hv) hf).2 (hfall v hv)
  · rintro ⟨v, hv, hne⟩
    rcases hfor with h | h
    · have hk : v.key ≤ (-Float64.MaxFloat64).key := by
        have := hfall v hv
        rwa [h] at this
      have hveq := Float64.eq_neg_MaxFloat64_of_le v (hvals v hv) hk hne
      rw [h, ← hveq]
      exact hv
    · exact h
  · intro hall
    rcases hfor with h | h
    · exact h
    · exfalso
      have hinf := hall _ h
      rw [hinf] at hfk
      exact absurd hfk (not_le.2 Float64.neg_MaxFloat64_key_gt)

theorem min_foldl_newValueFn {V : Type} (ConvertToFloat64 : V → Option Float64)
    (agg : aggregateMin) :
    ∀ (recs : List (GenericMap V × direction)) (acc : Float64),
      recs.foldl (fun a r => (aggregator.min agg).newValueFn ConvertToFloat64 r.1 a) acc =
        (recs.filterMap
          (fun r => (agg.getInputFieldValue ConvertToFloat64 r.1).toOption)).foldl
          Float64.Min acc := by
  intro recs
  induction recs with
  | nil => intro acc; rfl
  | cons r rest ih =>
    intro acc
    simp only [List.foldl_cons, List.filterMap_cons]
    rw [ih]
    cases hv : agg.getInputFieldValue ConvertToFloat64 r.1 <;>
      simp [aggregator.newValueFn, hv, Except.toOption]

theorem max_foldl_newValueFn {V : Type} (ConvertToFloat64 : V → Option Float64)
    (agg : aggregateMax) :
    ∀ (recs : List (GenericMap V × direction)) (acc : Float64),
      recs.foldl (fun a r => (aggregator.max agg).newValueFn ConvertToFloat64 r.1 a) acc =
        (recs.filterMap
          (fun r => (agg.getInputFieldValue ConvertToFloat64 r.1).toOption)).foldl
          Float64.Max acc := by
  intro recs
  induction recs with
  | nil => intro acc; rfl
  | cons r rest ih =>
    intro acc
    simp only [List.foldl_cons, List.filterMap_cons]
    rw [ih]
    cases hv : agg.getInputFieldValue ConvertToFloat64 r.1 <;>
      simp [aggregator.newValueFn, hv, Except.toOption]

theorem validValues_not_nan {V : Type} (ConvertToFloat64 : V → Option Float64)
    (agg : aggregateBase) (out : String) (recs : List (GenericMap V × direction))
    (hnan : ∀ r ∈ recs, ∀ v, agg.getInputFieldValue ConvertToFloat64 r.1 = .ok v →
      v.IsNaN = false) :
    ∀ v ∈ agg.validValues ConvertToFloat64 out recs, v.IsNaN = false := by
  intro v hv
  simp only [aggregateBase.validValues, List.mem_filterMap, List.mem_filter] at hv
  obtain ⟨r, ⟨hr, -⟩, hval⟩ := hv
  apply hnan r hr v
  cases h : agg.getInputFieldValue ConvertToFloat64 r.1 with
  | error e => simp [h, Except.toOption] at hval
  | ok w =>
    simp [h, Except.toOption] at hval
    rw [hval]

theorem NewAggregator_ok_min (of : OutputField) (agg : aggregator)
    (h : NewAggregator of = .ok agg) (hop : of.Operation = "min") :
    ∃ a : aggregateMin, agg = .min a ∧ a.initVal = Float64.MaxFloat64 := by
  unfold NewAggregator at h
  by_cases hn : of.Name = ""
  · simp [hn] at h
  · simp [hn, hop] at h
    exact ⟨_, h.symm, rfl⟩

theorem NewAggregator_ok_max (of : OutputField) (agg : aggregator)
    (h : NewAggregator of = .ok agg) (hop : of.Operation = "max") :
    ∃ a : aggregateMax, agg = .max a ∧ a.initVal = -Float64.MaxFloat64 := by
  unfold NewAggregator at h
  by_cases hn : of.Name = ""
  · simp [hn] at h
  · simp [hn, hop] at h
    exact ⟨_, h.symm, rfl⟩

theorem min_newValueFn_le {V : Type} (ConvertToFloat64 : V → Option Float64)
    (agg : aggregateMin) (flowLog : GenericMap V) (acc : Float64) (hacc : acc.IsNaN = false)
    (hnan : ∀ v, agg.getInputFieldValue ConvertToFloat64 flowLog = .ok v → v.IsNaN = false) :
    ((aggregator.min agg).newValueFn ConvertToFloat64 flowLog acc).le acc = true := by
  cases hv : agg.getInputFieldValue ConvertToFloat64 flowLog with
  | error e =>
    simp [aggregator.newValueFn, hv, Float64.le, hacc]
  | ok v =>
    obtain ⟨-, hm, hk, -⟩ := Float64.Min_spec acc v hacc (hnan v hv)
    simp only [aggregator.newValueFn, hv]
    exact (Float64.le_iff_key _ _ hm hacc).2 hk

theorem max_newValueFn_ge {V : Type} (ConvertToFloat64 : V → Option Float64)
    (agg : aggregateMax) (flowLog : GenericMap V) (acc : Float64) (hacc : acc.IsNaN = false)
    (hnan : ∀ v, agg.getInputFieldValue ConvertToFloat64 flowLog = .ok v → v.IsNaN = false) :
    ((aggregator.max agg).newValueFn ConvertToFloat64 flowLog acc).ge acc = true := by
  cases hv : agg.getInputFieldValue ConvertToFloat64 flowLog with
  | error e =>
    simp [aggregator.newValueFn, hv, Float64.ge, Float64.le, hacc]
  | ok v =>
    obtain ⟨-, hm, hk, -⟩ := Float64.Max_spec acc v hacc (hnan v hv)
    simp only [aggregator.newValueFn, hv, Float64.ge]
    exact (Float64.le_iff_key _ _ hacc hm).2 hk

theorem groupKey_fst {V : Type} (keyText : V → String) (d : Definition)
    (flowLog : GenericMap V) (k : GroupKey) (h : groupKey keyText d flowLog = some k) :
    k.1 = d.Name := by
  unfold groupKey at h
  cases hv : groupKeyValues keyText d.By flowLog with
  | none => simp [hv] at h
  | some vals =>
    simp [hv] at h
    rw [← h]

theorem view_updateEntry {V : Type} (ConvertToFloat64 : V → Option Float64)
    (keyText : V → String) (d : Definition) (agg : aggregator) (st : BatchState)
    (flowLog : GenericMap V) (k : GroupKey) :
    (updateEntry ConvertToFloat64 keyText d agg st flowLog).view k =
      if groupKey keyText d flowLog = some k then
        touchEntry ConvertToFloat64 agg (st.view k) flowLog
      else st.view k := by
  unfold updateEntry
  cases hg : groupKey keyText d flowLog with
  | none => simp
  | some key =>
    by_cases hk : key = k
    · subst hk
      by_cases ht : key ∈ st.touched
      · simp [BatchState.view, touchEntry, ht]
      · simp [BatchState.view, touchEntry, ht]
    · have hk' : ¬ k = key := fun h => hk h.symm
      by_cases ht : key ∈ st.touched
      · simp [BatchState.view, hk, hk', ht]
      · simp [BatchState.view, hk, hk', ht]

theorem view_foldl_updateEntry {V : Type} (ConvertToFloat64 : V → Option Float64)
    (keyText : V → String) (d : Definition) (agg : aggregator) (k : GroupKey) :
    ∀ (batch : List (GenericMap V)) (st : BatchState),
      (batch.foldl (updateEntry ConvertToFloat64 keyText d agg) st).view k =
        (groupRecords keyText d k batch).foldl (touchEntry ConvertToFloat64 agg) (st.view k) := by
  intro batch
  induction batch with
  | nil => intro st; rfl
  | cons r rest ih =>
    intro st
    simp only [List.foldl_cons, groupRecords, List.filter_cons]
    rw [ih, view_updateEntry]
    by_cases hg : groupKey keyText d r = some k
    · simp [hg, groupRecords]
    · simp [hg, groupRecords]

theorem groupRecords_other {V : Type} (keyText : V → String) (d : Definition) (k : GroupKey)
    (batch : List (GenericMap V)) (h : d.Name ≠ k.1) :
    groupRecords keyText d k batch = [] := by
  simp only [groupRecords, List.filter_eq_nil_iff, decide_eq_true_eq]
  intro r _ hg
  exact h (groupKey_fst keyText d r k hg).symm

theorem view_consume_other {V : Type} (ConvertToFloat64 : V → Option Float64)
    (keyText : V → String) (batch : List (GenericMap V)) (k : GroupKey) :
    ∀ (aggs : List (Definition × aggregator)) (st : BatchState),
      (∀ da ∈ aggs, da.1.Name ≠ k.1) →
      (aggs.foldl
        (fun st da => batch.foldl (updateEntry ConvertToFloat64 keyText da.1 da.2) st) st).view k =
        st.view k := by
  intro aggs
  induction aggs with
  | nil => intro st _; rfl
  | cons da rest ih =>
    intro st h
    simp only [List.foldl_cons]
    rw [ih _ (fun da' hda' => h da' (List.mem_cons_of_mem _ hda')), view_foldl_updateEntry,
      groupRecords_other keyText da.1 k batch (h da (List.mem_cons_self _ _))]
    rfl

theorem view_consume {V : Type} (ConvertToFloat64 : V → Option Float64)
    (keyText : V → String) (batch : List (GenericMap V)) (d : Definition) (agg : aggregator)
    (k : GroupKey) (hk : k.1 = d.Name) :
    ∀ (aggs : List (Definition × aggregator)) (st : BatchState),
      (aggs.map (fun da => da.1.Name)).Nodup → (d, agg) ∈ aggs →
      (aggs.foldl
        (fun st da => batch.foldl (updateEntry ConvertToFloat64 keyText da.1 da.2) st) st).view k =
        (groupRecords keyText d k batch).foldl (touchEntry ConvertToFloat64 agg) (st.view k) := by
  intro aggs
  induction aggs with
  | nil => intro st _ hmem; cases hmem
  | cons da rest ih =>
    intro st hnd hmem
    simp only [List.foldl_cons]
    rw [List.map_cons, List.nodup_cons] at hnd
    rcases List.mem_cons.1 hmem with h | h
    · subst h
      rw [view_consume_other ConvertToFloat64 keyText batch k rest _ ?_, view_foldl_updateEntry]
      intro da' hda' hname
      apply hnd.1
      rw [← hk, ← hname]
      exact List.mem_map_of_mem (fun da => da.1.Name) hda'
    · rw [ih _ hnd.2 h, view_foldl_updateEntry, groupRecords_other keyText da.1 k batch ?_]
      · rfl
      · intro hname
        apply hnd.1
        rw [hname, hk]
        exact List.mem_map_of_mem (fun da => da.1.Name) h

theorem foldl_touchEntry_touched {V : Type} (ConvertToFloat64 : V → Option Float64)
    (agg : aggregator) :
    ∀ (rs : List (GenericMap V)) (e : GroupAggregateEntry),
      rs.foldl (touchEntry ConvertToFloat64 agg) (some e, true) =
        (some
          { accumulatedValue :=
              rs.foldl (fun a r => agg.newValueFn ConvertToFloat64 r a) e.accumulatedValue,
            cumulativeCount := e.cumulativeCount + rs.length,
            currentBatchRawValues :=
              e.currentBatchRawValues ++ rs.filterMap (agg.valueUsed ConvertToFloat64) },
         true) := by
  intro rs
  induction rs with
  | nil => intro e; simp
  | cons r rest ih =>
    intro e
    simp only [List.foldl_cons, touchEntry, Option.getD_some, if_true]
    rw [ih]
    cases hv : agg.valueUsed ConvertToFloat64 r <;>
      simp [List.filterMap_cons, hv, Nat.add_assoc, Nat.add_comm 1]

theorem foldl_touchEntry_first {V : Type} (ConvertToFloat64 : V → Option Float64)
    (agg : aggregator) (rs : List (GenericMap V)) (c : Option GroupAggregateEntry)
    (hrs : rs ≠ []) :
    rs.foldl (touchEntry ConvertToFloat64 agg) (c, false) =
      (some
        { accumulatedValue :=
            rs.foldl (fun a r => agg.newValueFn ConvertToFloat64 r a)
              (c.getD ⟨agg.base.initVal, 0, []⟩).accumulatedValue,
          cumulativeCount := (c.getD ⟨agg.base.initVal, 0, []⟩).cumulativeCount + rs.length,
          currentBatchRawValues := rs.filterMap (agg.valueUsed ConvertToFloat64) },
       true) := by
  cases rs with
  | nil => exact absurd rfl hrs
  | cons r rest =>
    simp only [List.foldl_cons, touchEntry]
    rw [foldl_touchEntry_touched]
    cases hv : agg.valueUsed ConvertToFloat64 r <;>
      simp [List.filterMap_cons, hv, Nat.add_assoc, Nat.add_comm 1]

theorem groupRecords_append {V : Type} (keyText : V → String) (d : Definition) (k : GroupKey)
    (l₁ l₂ : List (GenericMap V)) :
    groupRecords keyText d k (l₁ ++ l₂) =
      groupRecords keyText d k l₁ ++ groupRecords keyText d k l₂ := by
  simp [groupRecords]

theorem consume_view {V : Type} (ConvertToFloat64 : V → Option Float64)
    (keyText : V → String) (ea : ExtractAggregate) (batch : List (GenericMap V))
    (d : Definition) (agg : aggregator) (k : GroupKey) (hk : k.1 = d.Name)
    (hnd : (ea.Aggregates.map (fun da => da.1.Name)).Nodup) (hmem : (d, agg) ∈ ea.Aggregates) :
    (ea.consume ConvertToFloat64 keyText batch).view k =
      (groupRecords keyText d k batch).foldl (touchEntry ConvertToFloat64 agg)
        (ea.cache k, false) := by
  unfold ExtractAggregate.consume
  rw [view_consume ConvertToFloat64 keyText batch d agg k hk ea.Aggregates _ hnd hmem]
  simp [BatchState.view]

/-- One `Extract` call applies the operation to the accumulated value of a key
once for each record of the batch in the key's group, and adds their number to
the cumulative count. -/
theorem Extract_entry {V : Type} (ConvertToFloat64 : V → Option Float64)
    (keyText : V → String) (ea : ExtractAggregate) (batch : List (GenericMap V))
    (d : Definition) (agg : aggregator) (k : GroupKey) (hk : k.1 = d.Name)
    (hnd : (ea.Aggregates.map (fun da => da.1.Name)).Nodup) (hmem : (d, agg) ∈ ea.Aggregates) :
    ((((ea.Extract ConvertToFloat64 keyText batch).1.cache k).getD
        ⟨agg.base.initVal, 0, []⟩).accumulatedValue =
      (groupRecords keyText d k batch).foldl (fun a r => agg.newValueFn ConvertToFloat64 r a)
        ((ea.cache k).getD ⟨agg.base.initVal, 0, []⟩).accumulatedValue) ∧
    ((((ea.Extract ConvertToFloat64 keyText batch).1.cache k).getD
        ⟨agg.base.initVal, 0, []⟩).cumulativeCount =
      ((ea.cache k).getD ⟨agg.base.initVal, 0, []⟩).cumulativeCount +
        (groupRecords keyText d k batch).length) := by
  have hview := consume_view ConvertToFloat64 keyText ea batch d agg k hk hnd hmem
  have hcache : (ea.Extract ConvertToFloat64 keyText batch).1.cache k =
      ((ea.consume ConvertToFloat64 keyText batch).view k).1 := rfl
  rw [hcache, hview]
  by_cases hrs : groupRecords keyText d k batch = []
  · rw [hrs]
    simp
  · rw [foldl_touchEntry_first ConvertToFloat64 agg _ _ hrs]
    simp

theorem ExtractAll_entry {V : Type} (ConvertToFloat64 : V → Option Float64)
    (keyText : V → String) (d : Definition) (agg : aggregator) (k : GroupKey)
    (hk : k.1 = d.Name) :
    ∀ (prev : List (List (GenericMap V))) (ea : ExtractAggregate),
      (ea.Aggregates.map (fun da => da.1.Name)).Nodup → (d, agg) ∈ ea.Aggregates →
      (ea.ExtractAll ConvertToFloat64 keyText prev).Aggregates = ea.Aggregates ∧
      ((((ea.ExtractAll ConvertToFloat64 keyText prev).cache k).getD
          ⟨agg.base.initVal, 0, []⟩).accumulatedValue =
        (groupRecords keyText d k prev.flatten).foldl
          (fun a r => agg.newValueFn ConvertToFloat64 r a)
          ((ea.cache k).getD ⟨agg.base.initVal, 0, []⟩).accumulatedValue) ∧
      ((((ea.ExtractAll ConvertToFloat64 keyText prev).cache k).getD
          ⟨agg.base.initVal, 0, []⟩).cumulativeCount =
        ((ea.cache k).getD ⟨agg.base.initVal, 0, []⟩).cumulativeCount +
          (groupRecords keyText d k prev.flatten).length) := by
  intro prev
  induction prev with
  | nil =>
    intro ea _ _
    exact ⟨rfl, rfl, rfl⟩
  | cons b rest ih =>
    intro ea hnd hmem
    obtain ⟨h₁, h₂⟩ := Extract_entry ConvertToFloat64 keyText ea b d agg k hk hnd hmem
    have hagg : (ea.Extract ConvertToFloat64 keyText b).1.Aggregates = ea.Aggregates := rfl
    obtain ⟨i₀, i₁, i₂⟩ := ih (ea.Extract ConvertToFloat64 keyText b).1
      (by rw [hagg]; exact hnd) (by rw [hagg]; exact hmem)
    simp only [ExtractAggregate.ExtractAll, List.flatten_cons, groupRecords_append,
      List.foldl_append, List.length_append]
    refine ⟨i₀.trans hagg, ?_, ?_⟩
    · rw [i₁, h₁]
    · rw [i₂, h₂, Nat.add_assoc]

theorem mem_Extract_outputs {V : Type} (ConvertToFloat64 : V → Option Float64)
    (keyText : V → String) (ea : ExtractAggregate) (batch : List (GenericMap V))
    (o : OutputRecord) :
    o ∈ (ea.Extract ConvertToFloat64 keyText batch).2 ↔
      ∃ da ∈ ea.Aggregates, ∃ key e,
        ((ea.consume ConvertToFloat64 keyText batch).view key).2 = true ∧
        key.1 = da.1.Name ∧
        ((ea.consume ConvertToFloat64 keyText batch).view key).1 = some e ∧
        o = synthesize da.1 key e := by
  simp only [ExtractAggregate.Extract, List.mem_flatMap, List.mem_filterMap, List.mem_filter,
    Option.map_eq_some', BatchState.view, decide_eq_true_eq, beq_iff_eq]
  constructor
  · rintro ⟨da, hda, key, ⟨ht, hn⟩, e, he, rfl⟩
    exact ⟨da, hda, key, e, ht, hn, he, rfl⟩
  · rintro ⟨da, hda, key, e, ht, hn, he, rfl⟩
    exact ⟨da, hda, key, ⟨ht, hn⟩, e, he, rfl⟩

theorem newAggregates_ok :
    ∀ (defs : List Definition) (aggs : List (Definition × aggregator)),
      newAggregates defs = .ok aggs →
      aggs.map Prod.fst = defs ∧
        ∀ da ∈ aggs, NewAggregator da.1.toOutputField = .ok da.2 := by
  intro defs
  induction defs with
  | nil =>
    intro aggs h
    simp [newAggregates] at h
    subst h
    simp
  | cons d rest ih =>
    intro aggs h
    unfold newAggregates at h
    cases hagg : NewAggregator d.toOutputField with
    | error e => simp [hagg] at h
    | ok agg =>
      cases hrest : newAggregates rest with
      | error e => simp [hagg, hrest] at h
      | ok l =>
        simp [hagg, hrest] at h
        subst h
        obtain ⟨h₁, h₂⟩ := ih l hrest
        refine ⟨by simp [h₁], ?_⟩
        intro da hda
        rcases List.mem_cons.1 hda with rfl | hda
        · exact hagg
        · exact h₂ da hda

/-- The output of an `Extract` call on a fresh extractor after the batches
`prev`: whatever is emitted under the name of the definition `d` for the group
`g` is the record synthesized from the operation folded over all the group's
records so far, their number, and the values used for the group's records of
this batch; and this record is emitted as soon as the batch holds a record of
the group. -/
theorem Extract_emitted {V : Type} (ConvertToFloat64 : V → Option Float64)
    (keyText : V → String) (defs : List Definition) (ea₀ : ExtractAggregate)
    (prev : List (List (GenericMap V))) (batch : List (GenericMap V))
    (d : Definition) (g : String)
    (hnew : NewExtractAggregate defs = .ok ea₀)
    (hnodup : (defs.map Definition.Name).Nodup)
    (hd : d ∈ defs) :
    ∃ agg, NewAggregator d.toOutputField = .ok agg ∧
      (∀ o ∈ ((ea₀.ExtractAll ConvertToFloat64 keyText prev).Extract
            ConvertToFloat64 keyText batch).2,
        o.name = d.Name → o.aggregate = g →
        o = synthesize d (d.Name, g)
          { accumulatedValue :=
              (groupRecords keyText d (d.Name, g) (prev.flatten ++ batch)).foldl
                (fun a r => agg.newValueFn ConvertToFloat64 r a) agg.base.initVal,
            cumulativeCount :=
              (groupRecords keyText d (d.Name, g) (prev.flatten ++ batch)).length,
            currentBatchRawValues :=
              (groupRecords keyText d (d.Name, g) batch).filterMap
                (agg.valueUsed ConvertToFloat64) }) ∧
      (groupRecords keyText d (d.Name, g) batch ≠ [] →
        synthesize d (d.Name, g)
          { accumulatedValue :=
              (groupRecords keyText d (d.Name, g) (prev.flatten ++ batch)).foldl
                (fun a r => agg.newValueFn ConvertToFloat64 r a) agg.base.initVal,
            cumulativeCount :=
              (groupRecords keyText d (d.Name, g) (prev.flatten ++ batch)).length,
            currentBatchRawValues :=
              (groupRecords keyText d (d.Name, g) batch).filterMap
                (agg.valueUsed ConvertToFloat64) } ∈
          ((ea₀.ExtractAll ConvertToFloat64 keyText prev).Extract
            ConvertToFloat64 keyText batch).2) := by
  -- the extractor `NewExtractAggregate` built
  unfold NewExtractAggregate at hnew
  cases haggs : newAggregates defs with
  | error e => simp [haggs] at hnew
  | ok aggs =>
    simp only [haggs, Except.ok.injEq] at hnew
    subst hnew
    obtain ⟨hfst, hok⟩ := newAggregates_ok defs aggs haggs
    have hnames : aggs.map (fun da => da.1.Name) = defs.map Definition.Name := by
      rw [← hfst, List.map_map]
      rfl
    have hnd : (aggs.map (fun da => da.1.Name)).Nodup := by rw [hnames]; exact hnodup
    have hdmem : ∃ agg, (d, agg) ∈ aggs := by
      rw [← hfst] at hd
      obtain ⟨da, hda, rfl⟩ := List.mem_map.1 hd
      exact ⟨da.2, hda⟩
    obtain ⟨agg, hmem⟩ := hdmem
    refine ⟨agg, hok (d, agg) hmem, ?_⟩
    -- the state of the key before and after the call
    obtain ⟨hAgg, hacc, hcnt⟩ := ExtractAll_entry ConvertToFloat64 keyText d agg (d.Name, g) rfl
      prev ⟨aggs, fun _ => none⟩ hnd hmem
    simp only [Option.getD_none, Nat.zero_add] at hacc hcnt
    have hnd' : ((ExtractAggregate.ExtractAll ConvertToFloat64 keyText ⟨aggs, fun _ => none⟩
        prev).Aggregates.map (fun da => da.1.Name)).Nodup := by rw [hAgg]; exact hnd
    have hmem' : (d, agg) ∈ (ExtractAggregate.ExtractAll ConvertToFloat64 keyText
        ⟨aggs, fun _ => none⟩ prev).Aggregates := by rw [hAgg]; exact hmem
    have hview := consume_view ConvertToFloat64 keyText
      (ExtractAggregate.ExtractAll ConvertToFloat64 keyText ⟨aggs, fun _ => none⟩ prev)
      batch d agg (d.Name, g) rfl hnd' hmem'
    have hentry : groupRecords keyText d (d.Name, g) batch ≠ [] →
        (ExtractAggregate.consume ConvertToFloat64 keyText
          (ExtractAggregate.ExtractAll ConvertToFloat64 keyText ⟨aggs, fun _ => none⟩ prev)
          batch).view (d.Name, g) =
        (some
          { accumulatedValue :=
              (groupRecords keyText d (d.Name, g) (prev.flatten ++ batch)).foldl
                (fun a r => agg.newValueFn ConvertToFloat64 r a) agg.base.initVal,
            cumulativeCount :=
              (groupRecords keyText d (d.Name, g) (prev.flatten ++ batch)).length,
            currentBatchRawValues :=
              (groupRecords keyText d (d.Name, g) batch).filterMap
                (agg.valueUsed ConvertToFloat64) },
         true) := by
      intro hrs
      rw [hview, foldl_touchEntry_first ConvertToFloat64 agg _ _ hrs, hacc, hcnt,
        groupRecords_append, List.foldl_append, List.length_append]
    refine ⟨?_, ?_⟩
    · intro o ho hname hgrp
      obtain ⟨da, hda, key, e, ht, hn, he, rfl⟩ :=
        (mem_Extract_outputs ConvertToFloat64 keyText _ batch o).1 ho
      rw [hAgg] at hda
      have hdaeq : da = (d, agg) :=
        List.inj_on_of_nodup_map hnd hda hmem (by simpa [synthesize] using hname)
      subst hdaeq
      have hkey : key = (d.Name, g) := by
        have h2 : key.2 = g := by simpa [synthesize] using hgrp
        exact Prod.ext hn h2
      subst hkey
      have hrs : groupRecords keyText d (d.Name, g) batch ≠ [] := by
        intro hnil
        rw [hview, hnil] at ht
        simp at ht
      rw [hentry hrs] at he
      simp only [Option.some.injEq] at he
      rw [← he]
    · intro hrs
      refine (mem_Extract_outputs ConvertToFloat64 keyText _ batch _).2
        ⟨(d, agg), hmem', (d.Name, g), _, ?_, rfl, ?_, rfl⟩
      · rw [hentry hrs]
      · rw [hentry hrs]

theorem sum_foldl_newValueFn_records {V : Type} (ConvertToFloat64 : V → Option Float64)
    (agg : aggregateSum) :
    ∀ (recs : List (GenericMap V)) (acc : Float64),
      recs.foldl (fun a r => (aggregator.sum agg).newValueFn ConvertToFloat64 r a) acc =
        (recs.filterMap
          (fun r => (agg.getInputFieldValue ConvertToFloat64 r).toOption)).foldl
          (fun a v => a + v) acc := by
  intro recs
  induction recs with
  | nil => intro acc; rfl
  | cons r rest ih =>
    intro acc
    simp only [List.foldl_cons, List.filterMap_cons]
    rw [ih]
    cases hv : agg.getInputFieldValue ConvertToFloat64 r <;>
      simp [aggregator.newValueFn, hv, Except.toOption]

theorem count_foldl_newValueFn_records {V : Type} (ConvertToFloat64 : V → Option Float64)
    (agg : aggregateCount) :
    ∀ (recs : List (GenericMap V)) (acc : Float64),
      recs.foldl (fun a r => (aggregator.count agg).newValueFn ConvertToFloat64 r a) acc =
        (fun curr => curr + Float64.one)^[recs.length] acc := by
  intro recs
  induction recs with
  | nil => intro acc; rfl
  | cons r rest ih =>
    intro acc
    simp only [List.foldl_cons, List.length_cons, Function.iterate_succ, Function.comp]
    rw [ih]
    rfl

theorem NewAggregator_ok_sum (of : OutputField) (agg : aggregator)
    (h : NewAggregator of = .ok agg) (hop : of.Operation = "sum") :
    ∃ a : aggregateSum, agg = .sum a ∧ a.initVal = Float64.zero := by
  unfold NewAggregator at h
  by_cases hn : of.Name = ""
  · simp [hn] at h
  · simp [hn, hop] at h
    exact ⟨_, h.symm, rfl⟩

theorem NewAggregator_ok_count (of : OutputField) (agg : aggregator)
    (h : NewAggregator of = .ok agg) (hop : of.Operation = "count") :
    ∃ a : aggregateCount, agg = .count a ∧ a.initVal = Float64.zero := by
  unfold NewAggregator at h
  by_cases hn : of.Name = ""
  · simp [hn] at h
  · simp [hn, hop] at h
    exact ⟨_, h.symm, rfl⟩

theorem groupRecords_ne_nil {V : Type} (keyText : V → String) (d : Definition) (k : GroupKey)
    (batch : List (GenericMap V)) (h : ∃ r ∈ batch, groupKey keyText d r = some k) :
    groupRecords keyText d k batch ≠ [] := by
  obtain ⟨r, hr, hg⟩ := h
  intro hnil
  have hmem : r ∈ groupRecords keyText d k batch := by
    simp [groupRecords, List.mem_filter, hr, hg]
  rw [hnil] at hmem
  cases hmem

theorem filterMap_valueUsed_count {V : Type} (ConvertToFloat64 : V → Option Float64)
    (agg : aggregateCount) (recs : List (GenericMap V)) :
    recs.filterMap ((aggregator.count agg).valueUsed ConvertToFloat64) =
      List.replicate recs.length Float64.one := by
  induction recs with
  | nil => rfl
  | cons r rest ih =>
    simp only [List.filterMap_cons, aggregator.valueUsed, List.length_cons,
      List.replicate_succ]
    rw [← ih]

/-!
## Construction
-/

/-- C1: `NewAggregator` returns an error exactly when the name is empty or the
operation is none of the literals "sum", "count", "min", "max"; for a non-empty
name and one of these operations it returns, without error, an aggregator of
the variant the operation names. -/
theorem NewAggregator_error_iff (of : OutputField) :
    ((∃ e, NewAggregator of = .error e) ↔
      (of.Name = "" ∨ of.Operation ∉ ["sum", "count", "min", "max"])) ∧
    (of.Name ≠ "" →
      (of.Operation = "sum" → ∃ a, NewAggregator of = .ok (.sum a)) ∧
      (of.Operation = "count" → ∃ a, NewAggregator of = .ok (.count a)) ∧
      (of.Operation = "min" → ∃ a, NewAggregator of = .ok (.min a)) ∧
      (of.Operation = "max" → ∃ a, NewAggregator of = .ok (.max a))) := by
  unfold NewAggregator
  by_cases hn : of.Name = ""
  · simp [hn]
  · by_cases h1 : of.Operation = "sum"
    · simp [hn, h1]
    · by_cases h2 : of.Operation = "count"
      · simp [hn, h2]
      · by_cases h3 : of.Operation = "min"
        · simp [hn, h3]
        · by_cases h4 : of.Operation = "max"
          · simp [hn, h4]
          · simp [hn, h1, h2, h3, h4]

/-- C2: the aggregator `NewAggregator` constructs has initial value 0 for sum,
0 for count, `math.MaxFloat64` for min and `-math.MaxFloat64` for max. -/
theorem NewAggregator_initVal (of : OutputField) (agg : aggregator)
    (h : NewAggregator of = .ok agg) :
    match agg with
    | .sum a => a.initVal = Float64.zero
    | .count a => a.initVal = Float64.zero
    | .min a => a.initVal = Float64.MaxFloat64
    | .max a => a.initVal = -Float64.MaxFloat64 :=
  NewAggregator_ok_initVal of agg h

theorem NewAggregator_initVal_witness :
    NewAggregator ⟨"rtt", true, "min", "TimeFlowRttNs"⟩ =
        .ok (.min ⟨⟨"TimeFlowRttNs", "rtt", true, Float64.MaxFloat64⟩⟩) ∧
      (⟨"TimeFlowRttNs", "rtt", true, Float64.MaxFloat64⟩ : aggregateBase).initVal =
        Float64.MaxFloat64 :=
  ⟨rfl, NewAggregator_initVal ⟨"rtt", true, "min", "TimeFlowRttNs"⟩
    (.min ⟨⟨"TimeFlowRttNs", "rtt", true, Float64.MaxFloat64⟩⟩) rfl⟩

/-!
## addField
-/

/-- C3: `addField` succeeds and the connection it leaves holds, for a splitAB
aggregator, `<base>_AB` and `<base>_BA` at the initial value and, otherwise,
`<base>` at the initial value; every other entry (and the connection's
identity) is as before. -/
theorem addField_entries (agg : aggregator) (conn : connection) :
    ∃ conn', agg.addField conn = .ok conn' ∧ conn'.hashTotal = conn.hashTotal ∧
      ∀ k, conn'.aggFields k =
        if agg.base.splitAB then
          (if k = agg.base.outputField ++ "_AB" ∨ k = agg.base.outputField ++ "_BA"
            then some agg.base.initVal else conn.aggFields k)
        else
          (if k = agg.base.outputField then some agg.base.initVal else conn.aggFields k) :=
  addField_ok_fields agg conn

/-!
## update
-/

/-- C4: for each of the four variants and every record, connection and
direction, `update` aborts exactly when the aggregator is splitAB and the
direction is NA; the state of the record's input field plays no part. -/
theorem update_panics_iff {V : Type} (ConvertToFloat64 : V → Option Float64)
    (agg : aggregator) (conn : connection) (flowLog : GenericMap V) (d : direction) :
    (∃ p, agg.update ConvertToFloat64 conn flowLog d = .error p) ↔
      (agg.base.splitAB = true ∧ d = .dirNA) := by
  cases agg with
  | sum a =>
    simp only [aggregator.update, aggregator.base, aggregateSum.update,
      aggregateBase.getOutputField]
    cases hs : a.splitAB <;> cases d <;>
      cases hv : a.getInputFieldValue ConvertToFloat64 flowLog <;>
      simp [bind, Except.bind, pure, Except.pure]
  | count a =>
    simp only [aggregator.update, aggregator.base, aggregateCount.update,
      aggregateBase.getOutputField]
    cases hs : a.splitAB <;> cases d <;> simp [bind, Except.bind, pure, Except.pure]
  | min a =>
    simp only [aggregator.update, aggregator.base, aggregateMin.update,
      aggregateBase.getOutputField]
    cases hs : a.splitAB <;> cases d <;>
      cases hv : a.getInputFieldValue ConvertToFloat64 flowLog <;>
      simp [bind, Except.bind, pure, Except.pure]
  | max a =>
    simp only [aggregator.update, aggregator.base, aggregateMax.update,
      aggregateBase.getOutputField]
    cases hs : a.splitAB <;> cases d <;>
      cases hv : a.getInputFieldValue ConvertToFloat64 flowLog <;>
      simp [bind, Except.bind, pure, Except.pure]

/-- C5: when the direction resolves to `outputField` and the record's input
field reads as `v`, a sum aggregator's `update` logs nothing and replaces the
accumulator `prev` of `outputField` by the float64 sum `prev + v`, leaving the
other entries alone. -/
theorem aggregateSum_update_adds {V : Type} (ConvertToFloat64 : V → Option Float64)
    (agg : aggregateSum) (conn : connection) (flowLog : GenericMap V) (d : direction)
    (outputField : String) (v prev : Float64)
    (hd : agg.getOutputField d = .ok outputField)
    (hv : agg.getInputFieldValue ConvertToFloat64 flowLog = .ok v)
    (hprev : conn.aggFields outputField = some prev) :
    ∃ conn', agg.update ConvertToFloat64 conn flowLog d = .ok (conn', none) ∧
      conn'.aggFields outputField = some (prev + v) ∧
      ∀ k, k ≠ outputField → conn'.aggFields k = conn.aggFields k := by
  refine ⟨conn.updateAggValue outputField (fun curr => curr + v), ?_, ?_, ?_⟩
  · simp [aggregateSum.update, hd, hv, bind, Except.bind, pure, Except.pure]
  · simp [connection.updateAggValue, hprev]
  · intro k hk
    simp [connection.updateAggValue, hk]

theorem aggregateSum_update_adds_witness :
    ∃ conn', (⟨⟨"Bytes", "Bytes_total", true, Float64.zero⟩⟩ : aggregateSum).update
        Value.ConvertToFloat64
        ((emptyConnection "c1").addAgg "Bytes_total_AB" Float64.one)
        (singleField "Bytes" (.float64 Float64.one)) .dirAB = .ok (conn', none) ∧
      conn'.aggFields "Bytes_total_AB" = some (Float64.one + Float64.one) :=
  let ⟨conn', h1, h2, _⟩ := aggregateSum_update_adds Value.ConvertToFloat64
    ⟨⟨"Bytes", "Bytes_total", true, Float64.zero⟩⟩
    ((emptyConnection "c1").addAgg "Bytes_total_AB" Float64.one)
    (singleField "Bytes" (.float64 Float64.one)) .dirAB "Bytes_total_AB"
    Float64.one Float64.one rfl rfl rfl
  ⟨conn', h1, h2⟩

/-- C6: when the direction resolves and the record lacks the input field, or
holds a value the conversion rejects, `update` of a sum, min or max aggregator
returns without abort, having logged the error, and the connection is exactly
as before. -/
theorem update_skips_bad_record {V : Type} (ConvertToFloat64 : V → Option Float64)
    (agg : aggregator) (conn : connection) (flowLog : GenericMap V) (d : direction)
    (outputField : String)
    (hvariant : ∀ a, agg ≠ .count a)
    (hd : agg.base.getOutputField d = .ok outputField)
    (hbad : flowLog agg.base.inputField = none ∨
      ∃ rawValue, flowLog agg.base.inputField = some rawValue ∧
        ConvertToFloat64 rawValue = none) :
    ∃ err, agg.update ConvertToFloat64 conn flowLog d =
      .ok (conn, some ⟨conn.hashTotal, err⟩) := by
  have herr : ∃ err, agg.base.getInputFieldValue ConvertToFloat64 flowLog = .error err := by
    unfold aggregateBase.getInputFieldValue
    rcases hbad with h | ⟨raw, h, hc⟩
    · exact ⟨.missingField agg.base.inputField, by rw [h]⟩
    · exact ⟨.cannotConvert raw, by rw [h]; simp only [hc]⟩
  obtain ⟨err, herr⟩ := herr
  refine ⟨err, ?_⟩
  cases agg with
  | sum a =>
    simp only [aggregator.base] at hd herr
    simp [aggregator.update, aggregateSum.update, hd, herr, bind, Except.bind, pure,
      Except.pure]
  | count a => exact absurd rfl (hvariant a)
  | min a =>
    simp only [aggregator.base] at hd herr
    simp [aggregator.update, aggregateMin.update, hd, herr, bind, Except.bind, pure,
      Except.pure]
  | max a =>
    simp only [aggregator.base] at hd herr
    simp [aggregator.update, aggregateMax.update, hd, herr, bind, Except.bind, pure,
      Except.pure]

theorem update_skips_bad_record_witness :
    ∃ err, (aggregator.min ⟨⟨"TimeFlowRttNs", "rtt", false, Float64.MaxFloat64⟩⟩).update
        Value.ConvertToFloat64
        ((emptyConnection "c1").addAgg "rtt" Float64.one)
        (singleField "TimeFlowRttNs" (.bool true)) .dirNA =
      .ok ((emptyConnection "c1").addAgg "rtt" Float64.one, some ⟨"c1", err⟩) :=
  update_skips_bad_record Value.ConvertToFloat64
    (.min ⟨⟨"TimeFlowRttNs", "rtt", false, Float64.MaxFloat64⟩⟩)
    ((emptyConnection "c1").addAgg "rtt" Float64.one)
    (singleField "TimeFlowRttNs" (.bool true)) .dirNA "rtt"
    (fun _ h => by cases h) rfl (Or.inr ⟨.bool true, rfl, rfl⟩)

/-- C7: when the direction resolves to `outputField`, a count aggregator's
`update` gives the same result for any two records, and that result replaces
the accumulator `prev` of `outputField` by the float64 sum `prev + 1`, logs
nothing and leaves the other entries alone. -/
theorem aggregateCount_update_any_record {V : Type}
    (agg : aggregateCount) (conn : connection) (flowLog₁ flowLog₂ : GenericMap V)
    (d : direction) (outputField : String) (prev : Float64)
    (hd : agg.getOutputField d = .ok outputField)
    (hprev : conn.aggFields outputField = some prev) :
    agg.update conn flowLog₁ d = agg.update conn flowLog₂ d ∧
    ∃ conn', agg.update conn flowLog₁ d = .ok (conn', none) ∧
      conn'.aggFields outputField = some (prev + Float64.one) ∧
      ∀ k, k ≠ outputField → conn'.aggFields k = conn.aggFields k := by
  refine ⟨rfl, conn.updateAggValue outputField (fun curr => curr + Float64.one), ?_, ?_, ?_⟩
  · simp [aggregateCount.update, hd, bind, Except.bind, pure, Except.pure]
  · simp [connection.updateAggValue, hprev]
  · intro k hk
    simp [connection.updateAggValue, hk]

theorem aggregateCount_update_any_record_witness :
    (⟨⟨"Bytes", "flows", false, Float64.zero⟩⟩ : aggregateCount).update
        ((emptyConnection "c1").addAgg "flows" Float64.zero)
        (singleField "Bytes" (.float64 Float64.one)) .dirNA =
      (⟨⟨"Bytes", "flows", false, Float64.zero⟩⟩ : aggregateCount).update
        ((emptyConnection "c1").addAgg "flows" Float64.zero)
        (singleField "Other" (.bool false)) .dirNA :=
  (aggregateCount_update_any_record ⟨⟨"Bytes", "flows", false, Float64.zero⟩⟩
    ((emptyConnection "c1").addAgg "flows" Float64.zero)
    (singleField "Bytes" (.float64 Float64.one)) (singleField "Other" (.bool false))
    .dirNA "flows" Float64.zero rfl rfl).1

/-!
## min and max
-/

/-- C8 (as stated, at a concrete input): the min aggregator built for `rtt`,
on the connection `addField` has just initialised, is updated with a record
whose input field reads as `+Inf`; the accumulator is then `math.MaxFloat64`,
not the observed value. -/
theorem aggregateMin_first_update_posInf :
    NewAggregator ⟨"rtt", false, "min", "TimeFlowRttNs"⟩ =
      .ok (.min ⟨⟨"TimeFlowRttNs", "rtt", false, Float64.MaxFloat64⟩⟩) ∧
    (aggregator.min ⟨⟨"TimeFlowRttNs", "rtt", false, Float64.MaxFloat64⟩⟩).addField
        (emptyConnection "c1") =
      .ok ((emptyConnection "c1").addAgg "rtt" Float64.MaxFloat64) ∧
    (⟨"TimeFlowRttNs", "rtt", false, Float64.MaxFloat64⟩ : aggregateBase).getInputFieldValue
        Value.ConvertToFloat64
        (singleField "TimeFlowRttNs" (.float64 (Float64.Inf false))) =
      .ok (Float64.Inf false) ∧
    ((⟨⟨"TimeFlowRttNs", "rtt", false, Float64.MaxFloat64⟩⟩ : aggregateMin).update
        Value.ConvertToFloat64
        ((emptyConnection "c1").addAgg "rtt" Float64.MaxFloat64)
        (singleField "TimeFlowRttNs" (.float64 (Float64.Inf false))) .dirNA).map
        (fun r => r.1.aggFields "rtt") =
      .ok (some Float64.MaxFloat64) ∧
    Float64.MaxFloat64 ≠ Float64.Inf false := by
  refine ⟨rfl, rfl, rfl, rfl, by decide⟩

/-- C8 (amended): when the direction resolves to `outputField` and the input
field reads as `v`, a min aggregator's `update` sets the accumulator `prev` of
`outputField` to `math.Min(prev, v)`; and for a min aggregator built by
`NewAggregator`, on the connection `addField` has just initialised, the
accumulator after that update is `v` itself unless `v` is `+Inf`, in which case
it is the initial value `math.MaxFloat64`. -/
theorem aggregateMin_update_min {V : Type} (ConvertToFloat64 : V → Option Float64)
    (agg : aggregateMin) (flowLog : GenericMap V) (d : direction)
    (outputField : String) (v : Float64)
    (hd : agg.getOutputField d = .ok outputField)
    (hv : agg.getInputFieldValue ConvertToFloat64 flowLog = .ok v) :
    (∀ conn prev, conn.aggFields outputField = some prev →
      ∃ conn', agg.update ConvertToFloat64 conn flowLog d = .ok (conn', none) ∧
        conn'.aggFields outputField = some (Float64.Min prev v) ∧
        ∀ k, k ≠ outputField → conn'.aggFields k = conn.aggFields k) ∧
    (∀ of conn₀, NewAggregator of = .ok (.min agg) →
      ∃ conn conn', (aggregator.min agg).addField conn₀ = .ok conn ∧
        agg.update ConvertToFloat64 conn flowLog d = .ok (conn', none) ∧
        conn'.aggFields outputField =
          some (if v = Float64.Inf false then Float64.MaxFloat64 else v)) := by
  have hstep : ∀ conn prev, conn.aggFields outputField = some prev →
      ∃ conn', agg.update ConvertToFloat64 conn flowLog d = .ok (conn', none) ∧
        conn'.aggFields outputField = some (Float64.Min prev v) ∧
        ∀ k, k ≠ outputField → conn'.aggFields k = conn.aggFields k := by
    intro conn prev hprev
    refine ⟨conn.updateAggValue outputField (fun curr => Float64.Min curr v), ?_, ?_, ?_⟩
    · simp [aggregateMin.update, hd, hv, bind, Except.bind, pure, Except.pure]
    · simp [connection.updateAggValue, hprev]
    · intro k hk
      simp [connection.updateAggValue, hk]
  refine ⟨hstep, ?_⟩
  intro of conn₀ hnew
  have hinit : agg.initVal = Float64.MaxFloat64 := NewAggregator_ok_initVal of (.min agg) hnew
  obtain ⟨conn, hadd, -, hfields⟩ := addField_ok_fields (.min agg) conn₀
  have hfresh : conn.aggFields outputField = some Float64.MaxFloat64 := by
    rw [hfields outputField]
    simp only [aggregator.base]
    rcases getOutputField_ok_cases _ _ _ hd with ⟨hs, ho⟩ | ⟨hs, -, ho⟩ | ⟨hs, -, ho⟩ <;>
      simp [hs, ho, hinit]
  obtain ⟨conn', hupd, hval, -⟩ := hstep conn _ hfresh
  refine ⟨conn, conn', hadd, hupd, ?_⟩
  rw [hval]
  by_cases hinf : v = Float64.Inf false
  · subst hinf
    simp only [if_true]
    rfl
  · rw [Float64.Min_MaxFloat64 v hinf]
    simp [hinf]

theorem aggregateMin_update_min_witness :
    ∃ conn conn',
      (aggregator.min ⟨⟨"TimeFlowRttNs", "rtt", true, Float64.MaxFloat64⟩⟩).addField
        (emptyConnection "c1") = .ok conn ∧
      (⟨⟨"TimeFlowRttNs", "rtt", true, Float64.MaxFloat64⟩⟩ : aggregateMin).update
        Value.ConvertToFloat64 conn
        (singleField "TimeFlowRttNs" (.float64 Float64.one)) .dirBA = .ok (conn', none) ∧
      conn'.aggFields "rtt_BA" =
        some (if Float64.one = Float64.Inf false then Float64.MaxFloat64 else Float64.one) :=
  (aggregateMin_update_min Value.ConvertToFloat64
    ⟨⟨"TimeFlowRttNs", "rtt", true, Float64.MaxFloat64⟩⟩
    (singleField "TimeFlowRttNs" (.float64 Float64.one)) .dirBA "rtt_BA" Float64.one
    rfl rfl).2 ⟨"rtt", true, "min", "TimeFlowRttNs"⟩ (emptyConnection "c1") rfl

/-- C9 (as stated, at a concrete input): the max aggregator built for `rtt`,
on the connection `addField` has just initialised, is updated with a record
whose input field reads as `-Inf`; the accumulator is then `-math.MaxFloat64`,
not the observed value. -/
theorem aggregateMax_first_update_negInf :
    NewAggregator ⟨"rtt", false, "max", "TimeFlowRttNs"⟩ =
      .ok (.max ⟨⟨"TimeFlowRttNs", "rtt", false, -Float64.MaxFloat64⟩⟩) ∧
    (aggregator.max ⟨⟨"TimeFlowRttNs", "rtt", false, -Float64.MaxFloat64⟩⟩).addField
        (emptyConnection "c1") =
      .ok ((emptyConnection "c1").addAgg "rtt" (-Float64.MaxFloat64)) ∧
    (⟨"TimeFlowRttNs", "rtt", false, -Float64.MaxFloat64⟩ : aggregateBase).getInputFieldValue
        Value.ConvertToFloat64
        (singleField "TimeFlowRttNs" (.float64 (Float64.Inf true))) =
      .ok (Float64.Inf true) ∧
    ((⟨⟨"TimeFlowRttNs", "rtt", false, -Float64.MaxFloat64⟩⟩ : aggregateMax).update
        Value.ConvertToFloat64
        ((emptyConnection "c1").addAgg "rtt" (-Float64.MaxFloat64))
        (singleField "TimeFlowRttNs" (.float64 (Float64.Inf true))) .dirNA).map
        (fun r => r.1.aggFields "rtt") =
      .ok (some (-Float64.MaxFloat64)) ∧
    -Float64.MaxFloat64 ≠ Float64.Inf true := by
  refine ⟨rfl, rfl, rfl, rfl, by decide⟩

/-- C9 (amended): when the direction resolves to `outputField` and the input
field reads as `v`, a max aggregator's `update` sets the accumulator `prev` of
`outputField` to `math.Max(prev, v)`; and for a max aggregator built by
`NewAggregator`, on the connection `addField` has just initialised, the
accumulator after that update is `v` itself unless `v` is `-Inf`, in which case
it is the initial value `-math.MaxFloat64`. -/
theorem aggregateMax_update_max {V : Type} (ConvertToFloat64 : V → Option Float64)
    (agg : aggregateMax) (flowLog : GenericMap V) (d : direction)
    (outputField : String) (v : Float64)
    (hd : agg.getOutputField d = .ok outputField)
    (hv : agg.getInputFieldValue ConvertToFloat64 flowLog = .ok v) :
    (∀ conn prev, conn.aggFields outputField = some prev →
      ∃ conn', agg.update ConvertToFloat64 conn flowLog d = .ok (conn', none) ∧
        conn'.aggFields outputField = some (Float64.Max prev v) ∧
        ∀ k, k ≠ outputField → conn'.aggFields k = conn.aggFields k) ∧
    (∀ of conn₀, NewAggregator of = .ok (.max agg) →
      ∃ conn conn', (aggregator.max agg).addField conn₀ = .ok conn ∧
        agg.update ConvertToFloat64 conn flowLog d = .ok (conn', none) ∧
        conn'.aggFields outputField =
          some (if v = Float64.Inf true then -Float64.MaxFloat64 else v)) := by
  have hstep : ∀ conn prev, conn.aggFields outputField = some prev →
      ∃ conn', agg.update ConvertToFloat64 conn flowLog d = .ok (conn', none) ∧
        conn'.aggFields outputField = some (Float64.Max prev v) ∧
        ∀ k, k ≠ outputField → conn'.aggFields k = conn.aggFields k := by
    intro conn prev hprev
    refine ⟨conn.updateAggValue outputField (fun curr => Float64.Max curr v), ?_, ?_, ?_⟩
    · simp [aggregateMax.update, hd, hv, bind, Except.bind, pure, Except.pure]
    · simp [connection.updateAggValue, hprev]
    · intro k hk
      simp [connection.updateAggValue, hk]
  refine ⟨hstep, ?_⟩
  intro of conn₀ hnew
  have hinit : agg.initVal = -Float64.MaxFloat64 := NewAggregator_ok_initVal of (.max agg) hnew
  obtain ⟨conn, hadd, -, hfields⟩ := addField_ok_fields (.max agg) conn₀
  have hfresh : conn.aggFields outputField = some (-Float64.MaxFloat64) := by
    rw [hfields outputField]
    simp only [aggregator.base]
    rcases getOutputField_ok_cases _ _ _ hd with ⟨hs, ho⟩ | ⟨hs, -, ho⟩ | ⟨hs, -, ho⟩ <;>
      simp [hs, ho, hinit]
  obtain ⟨conn', hupd, hval, -⟩ := hstep conn _ hfresh
  refine ⟨conn, conn', hadd, hupd, ?_⟩
  rw [hval]
  by_cases hinf : v = Float64.Inf true
  · subst hinf
    simp only [if_true]
    rfl
  · rw [Float64.Max_neg_MaxFloat64 v hinf]
    simp [hinf]

theorem aggregateMax_update_max_witness :
    ∃ conn conn',
      (aggregator.max ⟨⟨"TimeFlowRttNs", "rtt", true, -Float64.MaxFloat64⟩⟩).addField
        (emptyConnection "c1") = .ok conn ∧
      (⟨⟨"TimeFlowRttNs", "rtt", true, -Float64.MaxFloat64⟩⟩ : aggregateMax).update
        Value.ConvertToFloat64 conn
        (singleField "TimeFlowRttNs" (.float64 Float64.one)) .dirAB = .ok (conn', none) ∧
      conn'.aggFields "rtt_AB" =
        some (if Float64.one = Float64.Inf true then -Float64.MaxFloat64 else Float64.one) :=
  (aggregateMax_update_max Value.ConvertToFloat64
    ⟨⟨"TimeFlowRttNs", "rtt", true, -Float64.MaxFloat64⟩⟩
    (singleField "TimeFlowRttNs" (.float64 Float64.one)) .dirAB "rtt_AB" Float64.one
    rfl rfl).2 ⟨"rtt", true, "max", "TimeFlowRttNs"⟩ (emptyConnection "c1") rfl

/-!
## Direction split
-/

/-- C10: for a splitAB aggregator of any variant, an `update` with direction AB
changes no entry other than `<base>_AB` (in particular not `<base>_BA`), an
`update` with direction BA changes no entry other than `<base>_BA` (in
particular not `<base>_AB`), and after any run of updates that does not abort
each of the two fields holds what the run over the records of its own direction
alone leaves in it. -/
theorem splitAB_update_frame {V : Type} (ConvertToFloat64 : V → Option Float64)
    (agg : aggregator) (hsplit : agg.base.splitAB = true) :
    (∀ (conn : connection) (flowLog : GenericMap V),
      ∃ conn' log, agg.update ConvertToFloat64 conn flowLog .dirAB = .ok (conn', log) ∧
        conn'.aggFields (agg.base.outputField ++ "_BA") =
          conn.aggFields (agg.base.outputField ++ "_BA") ∧
        ∀ k, k ≠ agg.base.outputField ++ "_AB" → conn'.aggFields k = conn.aggFields k) ∧
    (∀ (conn : connection) (flowLog : GenericMap V),
      ∃ conn' log, agg.update ConvertToFloat64 conn flowLog .dirBA = .ok (conn', log) ∧
        conn'.aggFields (agg.base.outputField ++ "_AB") =
          conn.aggFields (agg.base.outputField ++ "_AB") ∧
        ∀ k, k ≠ agg.base.outputField ++ "_BA" → conn'.aggFields k = conn.aggFields k) ∧
    (∀ (conn conn' : connection) (recs : List (GenericMap V × direction)),
      agg.updateAll ConvertToFloat64 conn recs = .ok conn' →
      ∃ connAB connBA,
        agg.updateAll ConvertToFloat64 conn
          (recs.filter (fun r => decide (r.2 = .dirAB))) = .ok connAB ∧
        agg.updateAll ConvertToFloat64 conn
          (recs.filter (fun r => decide (r.2 = .dirBA))) = .ok connBA ∧
        conn'.aggFields (agg.base.outputField ++ "_AB") =
          connAB.aggFields (agg.base.outputField ++ "_AB") ∧
        conn'.aggFields (agg.base.outputField ++ "_BA") =
          connBA.aggFields (agg.base.outputField ++ "_BA")) := by
  have hAB : agg.base.getOutputField .dirAB = .ok (agg.base.outputField ++ "_AB") := by
    simp [aggregateBase.getOutputField, hsplit]
  have hBA : agg.base.getOutputField .dirBA = .ok (agg.base.outputField ++ "_BA") := by
    simp [aggregateBase.getOutputField, hsplit]
  refine ⟨?_, ?_, ?_⟩
  · intro conn flowLog
    obtain ⟨g, hg⟩ := update_transforms ConvertToFloat64 agg flowLog .dirAB _ hAB
    obtain ⟨conn', log, hu, -, hframe⟩ := hg conn
    exact ⟨conn', log, hu, hframe _ (append_AB_ne_append_BA _).symm, hframe⟩
  · intro conn flowLog
    obtain ⟨g, hg⟩ := update_transforms ConvertToFloat64 agg flowLog .dirBA _ hBA
    obtain ⟨conn', log, hu, -, hframe⟩ := hg conn
    exact ⟨conn', log, hu, hframe _ (append_AB_ne_append_BA _), hframe⟩
  · intro conn conn' recs hrun
    obtain ⟨connAB, h1, h2⟩ := updateAll_filter_field ConvertToFloat64 agg hsplit
      .dirAB _ hAB recs conn conn conn' rfl hrun
    obtain ⟨connBA, h3, h4⟩ := updateAll_filter_field ConvertToFloat64 agg hsplit
      .dirBA _ hBA recs conn conn conn' rfl hrun
    exact ⟨connAB, connBA, h1, h3, h2, h4⟩

theorem splitAB_update_frame_witness :
    ∃ conn' log,
      (aggregator.sum ⟨⟨"Bytes", "Bytes_total", true, Float64.zero⟩⟩).update
        Value.ConvertToFloat64
        (((emptyConnection "c1").addAgg "Bytes_total_AB" Float64.zero).addAgg
          "Bytes_total_BA" Float64.one)
        (singleField "Bytes" (.float64 Float64.one)) .dirAB = .ok (conn', log) ∧
      conn'.aggFields "Bytes_total_BA" = some Float64.one :=
  let ⟨conn', log, h1, h2, _⟩ := (splitAB_update_frame Value.ConvertToFloat64
    (.sum ⟨⟨"Bytes", "Bytes_total", true, Float64.zero⟩⟩) rfl).1
    (((emptyConnection "c1").addAgg "Bytes_total_AB" Float64.zero).addAgg
      "Bytes_total_BA" Float64.one)
    (singleField "Bytes" (.float64 Float64.one))
  ⟨conn', log, h1, h2⟩

/-!
## Reading the input field
-/

/-- C14: `getInputFieldValue` returns an error exactly when the record has no
entry for the aggregator's input field or the conversion rejects the entry's
value; otherwise it returns, without error, the number the conversion gives
for that entry. -/
theorem getInputFieldValue_error_iff {V : Type} (ConvertToFloat64 : V → Option Float64)
    (agg : aggregateBase) (flowLog : GenericMap V) :
    ((∃ err, agg.getInputFieldValue ConvertToFloat64 flowLog = .error err) ↔
      (flowLog agg.inputField = none ∨
        ∃ rawValue, flowLog agg.inputField = some rawValue ∧
          ConvertToFloat64 rawValue = none)) ∧
    (∀ rawValue floatValue, flowLog agg.inputField = some rawValue →
      ConvertToFloat64 rawValue = some floatValue →
      agg.getInputFieldValue ConvertToFloat64 flowLog = .ok floatValue) := by
  unfold aggregateBase.getInputFieldValue
  cases hraw : flowLog agg.inputField with
  | none => simp
  | some rawValue =>
    cases hconv : ConvertToFloat64 rawValue with
    | none =>
      simp only [hconv]
      refine ⟨⟨fun _ => Or.inr ⟨rawValue, rfl, hconv⟩, fun _ => ⟨_, rfl⟩⟩, ?_⟩
      intro r f hr hc
      cases hr
      rw [hconv] at hc
      cases hc
    | some floatValue =>
      simp only [hconv]
      refine ⟨⟨fun h => ?_, fun h => ?_⟩, ?_⟩
      · obtain ⟨err, herr⟩ := h
        cases herr
      · rcases h with h | ⟨r, hr, hc⟩
        · cases h
        · cases hr
          rw [hconv] at hc
          cases hc
      · intro r f hr hc
        cases hr
        rw [hconv] at hc
        cases hc
        rfl

/-!
## Safety of addField and direction-free aggregators
-/

/-- C17: `addField` never aborts: for every aggregator, splitAB or not, and
every connection it returns a connection, and the fatal branch of
`getOutputField` is not reached. -/
theorem addField_never_panics (agg : aggregator) (conn : connection) :
    (∃ conn', agg.addField conn = .ok conn') ∧
    (∀ p, agg.addField conn ≠ .error p) ∧
    (agg.base.splitAB = true →
      (∃ o, agg.base.getOutputField .dirAB = .ok o) ∧
      (∃ o, agg.base.getOutputField .dirBA = .ok o)) ∧
    (agg.base.splitAB = false → ∃ o, agg.base.getOutputField .dirNA = .ok o) := by
  obtain ⟨conn', h, -⟩ := addField_ok_fields agg conn
  refine ⟨⟨conn', h⟩, ?_, ?_, ?_⟩
  · intro p hp
    rw [h] at hp
    cases hp
  · intro hs
    simp [aggregateBase.getOutputField, hs]
  · intro hs
    simp [aggregateBase.getOutputField, hs]

/-- C18: for an aggregator with splitAB unset, `getOutputField` is the bare
base name for AB, BA and NA alike, `update` gives the same result whatever
direction is passed, and it never aborts. -/
theorem update_direction_irrelevant {V : Type} (ConvertToFloat64 : V → Option Float64)
    (agg : aggregator) (hsplit : agg.base.splitAB = false) :
    (∀ d, agg.base.getOutputField d = .ok agg.base.outputField) ∧
    (∀ (conn : connection) (flowLog : GenericMap V) (d₁ d₂ : direction),
      agg.update ConvertToFloat64 conn flowLog d₁ =
        agg.update ConvertToFloat64 conn flowLog d₂) ∧
    (∀ (conn : connection) (flowLog : GenericMap V) (d : direction),
      ∃ conn' log, agg.update ConvertToFloat64 conn flowLog d = .ok (conn', log)) := by
  have hout : ∀ d, agg.base.getOutputField d = .ok agg.base.outputField := by
    intro d
    simp [aggregateBase.getOutputField, hsplit]
  refine ⟨hout, ?_, ?_⟩
  · intro conn flowLog d₁ d₂
    have h1 := hout d₁
    have h2 := hout d₂
    cases agg <;> simp only [aggregator.base] at h1 h2 <;>
      simp [aggregator.update, aggregateSum.update, aggregateCount.update,
        aggregateMin.update, aggregateMax.update, h1, h2]
  · intro conn flowLog d
    obtain ⟨g, hg⟩ := update_transforms ConvertToFloat64 agg flowLog d _ (hout d)
    obtain ⟨conn', log, hu, -⟩ := hg conn
    exact ⟨conn', log, hu⟩

theorem update_direction_irrelevant_witness :
    (aggregator.sum ⟨⟨"Bytes", "Bytes_total", false, Float64.zero⟩⟩).update
        Value.ConvertToFloat64 ((emptyConnection "c1").addAgg "Bytes_total" Float64.zero)
        (singleField "Bytes" (.float64 Float64.one)) .dirNA =
      (aggregator.sum ⟨⟨"Bytes", "Bytes_total", false, Float64.zero⟩⟩).update
        Value.ConvertToFloat64 ((emptyConnection "c1").addAgg "Bytes_total" Float64.zero)
        (singleField "Bytes" (.float64 Float64.one)) .dirBA :=
  (update_direction_irrelevant Value.ConvertToFloat64
    (.sum ⟨⟨"Bytes", "Bytes_total", false, Float64.zero⟩⟩) rfl).2.1
    ((emptyConnection "c1").addAgg "Bytes_total" Float64.zero)
    (singleField "Bytes" (.float64 Float64.one)) .dirNA .dirBA

/-- C19: the aggregator `NewAggregator` constructs has the definition's name
as output field base, and as input field the definition's Input when that is
non-empty and the name otherwise; so with an empty Input `getInputFieldValue`
reads the record's entry named like the output field. -/
theorem NewAggregator_fields (of : OutputField) (agg : aggregator)
    (h : NewAggregator of = .ok agg) :
    agg.base.outputField = of.Name ∧
    agg.base.splitAB = of.SplitAB ∧
    agg.base.inputField = (if of.Input ≠ "" then of.Input else of.Name) ∧
    (of.Input = "" → agg.base.inputField = agg.base.outputField ∧
      ∀ (V : Type) (ConvertToFloat64 : V → Option Float64) (flowLog : GenericMap V),
        agg.base.getInputFieldValue ConvertToFloat64 flowLog =
          match flowLog of.Name with
          | none => .error (.missingField of.Name)
          | some rawValue =>
            match ConvertToFloat64 rawValue with
            | none => .error (.cannotConvert rawValue)
            | some floatValue => .ok floatValue) := by
  unfold NewAggregator at h
  by_cases hn : of.Name = ""
  · simp [hn] at h
  · simp only [hn, if_false] at h
    have key : agg.base.outputField = of.Name ∧ agg.base.splitAB = of.SplitAB ∧
        agg.base.inputField = (if of.Input ≠ "" then of.Input else of.Name) := by
      split_ifs at h <;> injection h with h <;> subst h <;>
        (refine ⟨rfl, rfl, ?_⟩; simp_all [aggregator.base])
    obtain ⟨h1, h2, h3⟩ := key
    refine ⟨h1, h2, h3, ?_⟩
    intro hin
    have h4 : agg.base.inputField = of.Name := by simp [h3, hin]
    refine ⟨by rw [h4, h1], ?_⟩
    intro V conv flowLog
    unfold aggregateBase.getInputFieldValue
    rw [h4]

theorem NewAggregator_fields_witness :
    (aggregator.count ⟨⟨"flows", "flows", true, Float64.zero⟩⟩).base.outputField = "flows" ∧
    (aggregator.count ⟨⟨"flows", "flows", true, Float64.zero⟩⟩).base.inputField = "flows" :=
  let h := NewAggregator_fields ⟨"flows", true, "count", ""⟩
    (.count ⟨⟨"flows", "flows", true, Float64.zero⟩⟩) rfl
  ⟨h.1, (h.2.2.2 rfl).1.trans h.1 |>.trans rfl⟩

/-!
## Runs of updates
-/

/-- C11: a sum aggregator built by `NewAggregator` is run over a sequence of
records whose directions all resolve, from the connection `addField` has just
initialised.  The run does not abort, and every output field then holds the
float64 sum, taken in arrival order from 0, of the input values of the records
attributed to that field whose input field reads as a number; the other
records contribute nothing. -/
theorem aggregateSum_updateAll_sum {V : Type} (ConvertToFloat64 : V → Option Float64)
    (of : OutputField) (agg : aggregateSum) (conn₀ : connection)
    (recs : List (GenericMap V × direction))
    (hnew : NewAggregator of = .ok (.sum agg))
    (hres : ∀ r ∈ recs, ∃ o, agg.getOutputField r.2 = .ok o) :
    ∃ conn conn', (aggregator.sum agg).addField conn₀ = .ok conn ∧
      (aggregator.sum agg).updateAll ConvertToFloat64 conn recs = .ok conn' ∧
      ∀ d out, agg.getOutputField d = .ok out →
        conn'.aggFields out =
          some (((recs.filter (fun r => agg.attributes out r.2)).filterMap
            (fun r => (agg.getInputFieldValue ConvertToFloat64 r.1).toOption)).foldl
            (fun a v => a + v) Float64.zero) := by
  have hinit : agg.initVal = Float64.zero := NewAggregator_ok_initVal of (.sum agg) hnew
  obtain ⟨conn, hadd, hfresh⟩ := addField_fresh (.sum agg) conn₀
  obtain ⟨conn', hrun, hfin⟩ := updateAll_fold ConvertToFloat64 (.sum agg) recs conn hres
  refine ⟨conn, conn', hadd, hrun, fun d out hd => ?_⟩
  rw [hfin out, hfresh d out hd]
  simp only [Option.map_some', aggregator.base]
  rw [sum_foldl_newValueFn, hinit]

set_option exponentiation.threshold 5000 in
theorem aggregateSum_updateAll_sum_witness :
    ∃ conn conn',
      (aggregator.sum ⟨⟨"Bytes", "Bytes_total", true, Float64.zero⟩⟩).addField
        (emptyConnection "c1") = .ok conn ∧
      (aggregator.sum ⟨⟨"Bytes", "Bytes_total", true, Float64.zero⟩⟩).updateAll
        Value.ConvertToFloat64 conn
        [(singleField "Bytes" (.float64 Float64.one), .dirAB),
         (singleField "Bytes" (.bool true), .dirAB),
         (singleField "Bytes" (.float64 Float64.one), .dirBA)] = .ok conn' ∧
      conn'.aggFields "Bytes_total_AB" = some Float64.one :=
  let ⟨conn, conn', h1, h2, h3⟩ := aggregateSum_updateAll_sum Value.ConvertToFloat64
    ⟨"Bytes_total", true, "sum", "Bytes"⟩ ⟨⟨"Bytes", "Bytes_total", true, Float64.zero⟩⟩
    (emptyConnection "c1")
    [(singleField "Bytes" (.float64 Float64.one), .dirAB),
     (singleField "Bytes" (.bool true), .dirAB),
     (singleField "Bytes" (.float64 Float64.one), .dirBA)]
    rfl
    (by
      intro r hr
      simp only [List.mem_cons, List.mem_singleton, List.not_mem_nil, or_false] at hr
      rcases hr with rfl | rfl | rfl <;> exact ⟨_, rfl⟩)
  ⟨conn, conn', h1, h2, (h3 .dirAB "Bytes_total_AB" rfl).trans (by decide)⟩

/-- C12: a count aggregator is run over a sequence of records whose directions
all resolve, from the connection `addField` has just initialised.  The run does
not abort, and every output field then holds 0 incremented by 1 (float64
addition) once for each record attributed to that field; what the records hold
plays no part. -/
theorem aggregateCount_updateAll_count {V : Type} (ConvertToFloat64 : V → Option Float64)
    (of : OutputField) (agg : aggregateCount) (conn₀ : connection)
    (recs : List (GenericMap V × direction))
    (hnew : NewAggregator of = .ok (.count agg))
    (hres : ∀ r ∈ recs, ∃ o, agg.getOutputField r.2 = .ok o) :
    ∃ conn conn', (aggregator.count agg).addField conn₀ = .ok conn ∧
      (aggregator.count agg).updateAll ConvertToFloat64 conn recs = .ok conn' ∧
      ∀ d out, agg.getOutputField d = .ok out →
        conn'.aggFields out =
          some ((fun curr => curr + Float64.one)^[
            ((recs.map Prod.snd).filter (fun d' => agg.attributes out d')).length]
            Float64.zero) := by
  have hinit : agg.initVal = Float64.zero := NewAggregator_ok_initVal of (.count agg) hnew
  obtain ⟨conn, hadd, hfresh⟩ := addField_fresh (.count agg) conn₀
  obtain ⟨conn', hrun, hfin⟩ := updateAll_fold ConvertToFloat64 (.count agg) recs conn hres
  refine ⟨conn, conn', hadd, hrun, fun d out hd => ?_⟩
  rw [hfin out, hfresh d out hd]
  simp only [Option.map_some', aggregator.base]
  rw [count_foldl_newValueFn, hinit]
  congr 2
  rw [List.filter_map, List.length_map]
  rfl

set_option exponentiation.threshold 5000 in
theorem aggregateCount_updateAll_count_witness :
    ∃ conn conn',
      (aggregator.count ⟨⟨"flows", "flows", false, Float64.zero⟩⟩).addField
        (emptyConnection "c1") = .ok conn ∧
      (aggregator.count ⟨⟨"flows", "flows", false, Float64.zero⟩⟩).updateAll
        Value.ConvertToFloat64 conn
        [(singleField "Bytes" (.float64 Float64.one), .dirAB),
         (singleField "Bytes" (.bool true), .dirNA),
         (singleField "Other" (.float64 Float64.zero), .dirBA)] = .ok conn' ∧
      conn'.aggFields "flows" = some (Float64.num false ⟨0x4008000000000000, by decide⟩) :=
  let ⟨conn, conn', h1, h2, h3⟩ := aggregateCount_updateAll_count Value.ConvertToFloat64
    ⟨"flows", false, "count", ""⟩ ⟨⟨"flows", "flows", false, Float64.zero⟩⟩
    (emptyConnection "c1")
    [(singleField "Bytes" (.float64 Float64.one), .dirAB),
     (singleField "Bytes" (.bool true), .dirNA),
     (singleField "Other" (.float64 Float64.zero), .dirBA)]
    rfl
    (by
      intro r hr
      simp only [List.mem_cons, List.mem_singleton, List.not_mem_nil, or_false] at hr
      rcases hr with rfl | rfl | rfl <;> exact ⟨_, rfl⟩)
  ⟨conn, conn', h1, h2, (h3 .dirNA "flows" rfl).trans (by decide)⟩

/-!
## Monotonicity and extremum of min and max
-/

/-- C13 (as stated, at a concrete input): the min aggregator built for `rtt`
with splitAB, on the connection `addField` has just initialised, is run over two
AB records whose input field reads as `+Inf`.  Both values are valid, so the
valid values seen by `rtt_AB` are `[+Inf, +Inf]` and their minimum is `+Inf`;
the accumulator is `math.MaxFloat64`, which is none of the values seen.  And
after the records `1`, `NaN` the accumulator is `NaN`, which is not `<=` the
accumulator `1` it replaces. -/
theorem aggregateMin_updateAll_not_minimum :
    NewAggregator ⟨"rtt", true, "min", "TimeFlowRttNs"⟩ =
      .ok (.min ⟨⟨"TimeFlowRttNs", "rtt", true, Float64.MaxFloat64⟩⟩) ∧
    (aggregator.min ⟨⟨"TimeFlowRttNs", "rtt", true, Float64.MaxFloat64⟩⟩).addField
        (emptyConnection "c1") =
      .ok (((emptyConnection "c1").addAgg "rtt_AB" Float64.MaxFloat64).addAgg
        "rtt_BA" Float64.MaxFloat64) ∧
    (⟨"TimeFlowRttNs", "rtt", true, Float64.MaxFloat64⟩ : aggregateBase).validValues
        Value.ConvertToFloat64 "rtt_AB"
        [(singleField "TimeFlowRttNs" (.float64 (Float64.Inf false)), .dirAB),
         (singleField "TimeFlowRttNs" (.float64 (Float64.Inf false)), .dirAB)] =
      [Float64.Inf false, Float64.Inf false] ∧
    ((aggregator.min ⟨⟨"TimeFlowRttNs", "rtt", true, Float64.MaxFloat64⟩⟩).updateAll
        Value.ConvertToFloat64
        (((emptyConnection "c1").addAgg "rtt_AB" Float64.MaxFloat64).addAgg
          "rtt_BA" Float64.MaxFloat64)
        [(singleField "TimeFlowRttNs" (.float64 (Float64.Inf false)), .dirAB),
         (singleField "TimeFlowRttNs" (.float64 (Float64.Inf false)), .dirAB)]).map
        (fun conn => conn.aggFields "rtt_AB") =
      .ok (some Float64.MaxFloat64) ∧
    Float64.MaxFloat64 ∉ [Float64.Inf false, Float64.Inf false] ∧
    ((aggregator.min ⟨⟨"TimeFlowRttNs", "rtt", true, Float64.MaxFloat64⟩⟩).updateAll
        Value.ConvertToFloat64
        (((emptyConnection "c1").addAgg "rtt_AB" Float64.MaxFloat64).addAgg
          "rtt_BA" Float64.MaxFloat64)
        [(singleField "TimeFlowRttNs" (.float64 Float64.one), .dirAB)]).map
        (fun conn => conn.aggFields "rtt_AB") =
      .ok (some Float64.one) ∧
    ((aggregator.min ⟨⟨"TimeFlowRttNs", "rtt", true, Float64.MaxFloat64⟩⟩).updateAll
        Value.ConvertToFloat64
        (((emptyConnection "c1").addAgg "rtt_AB" Float64.MaxFloat64).addAgg
          "rtt_BA" Float64.MaxFloat64)
        [(singleField "TimeFlowRttNs" (.float64 Float64.one), .dirAB),
         (singleField "TimeFlowRttNs" (.float64 Float64.nan), .dirAB)]).map
        (fun conn => conn.aggFields "rtt_AB") =
      .ok (some Float64.nan) ∧
    Float64.le Float64.nan Float64.one = false := by
  refine ⟨rfl, rfl, rfl, rfl, by decide, rfl, rfl, rfl⟩

/-- C13 (amended): an aggregator built by `NewAggregator` is run over a sequence
of records, and then updated with one more record, from the connection
`addField` has just initialised; all directions resolve and no input field
reads as NaN.  Neither the run nor the update aborts.  For a min aggregator the
update leaves every accumulator `<=` its previous value, and the accumulator
after the run is `<=` every valid value its field has seen; it is one of these
values (so their true minimum) as soon as one of them is not `+Inf`, and it is
the initial value `math.MaxFloat64` while all of them are `+Inf`.  For a max
aggregator the same holds with `>=`, `-Inf` and `-math.MaxFloat64`. -/
theorem minmax_updateAll_extremum {V : Type} (ConvertToFloat64 : V → Option Float64)
    (of : OutputField) (agg : aggregator) (conn₀ : connection)
    (recs : List (GenericMap V × direction)) (flowLog : GenericMap V) (d : direction)
    (hnew : NewAggregator of = .ok agg)
    (hres : ∀ r ∈ recs ++ [(flowLog, d)], ∃ o, agg.base.getOutputField r.2 = .ok o)
    (hnan : ∀ r ∈ recs ++ [(flowLog, d)], ∀ v,
      agg.base.getInputFieldValue ConvertToFloat64 r.1 = .ok v → v.IsNaN = false) :
    ∃ conn c₁ c₂ log, agg.addField conn₀ = .ok conn ∧
      agg.updateAll ConvertToFloat64 conn recs = .ok c₁ ∧
      agg.update ConvertToFloat64 c₁ flowLog d = .ok (c₂, log) ∧
      ∀ d' out, agg.base.getOutputField d' = .ok out →
        ∃ a₁ a₂, c₁.aggFields out = some a₁ ∧ c₂.aggFields out = some a₂ ∧
          (of.Operation = "min" →
            a₂.le a₁ = true ∧
            (∀ v ∈ agg.base.validValues ConvertToFloat64 out recs, a₁.le v = true) ∧
            ((∃ v ∈ agg.base.validValues ConvertToFloat64 out recs, v ≠ Float64.Inf false) →
              a₁ ∈ agg.base.validValues ConvertToFloat64 out recs) ∧
            ((∀ v ∈ agg.base.validValues ConvertToFloat64 out recs, v = Float64.Inf false) →
              a₁ = Float64.MaxFloat64)) ∧
          (of.Operation = "max" →
            a₂.ge a₁ = true ∧
            (∀ v ∈ agg.base.validValues ConvertToFloat64 out recs, a₁.ge v = true) ∧
            ((∃ v ∈ agg.base.validValues ConvertToFloat64 out recs, v ≠ Float64.Inf true) →
              a₁ ∈ agg.base.validValues ConvertToFloat64 out recs) ∧
            ((∀ v ∈ agg.base.validValues ConvertToFloat64 out recs, v = Float64.Inf true) →
              a₁ = -Float64.MaxFloat64)) := by
  have hres₁ : ∀ r ∈ recs, ∃ o, agg.base.getOutputField r.2 = .ok o :=
    fun r hr => hres r (List.mem_append_left _ hr)
  have hnan₁ : ∀ r ∈ recs, ∀ v,
      agg.base.getInputFieldValue ConvertToFloat64 r.1 = .ok v → v.IsNaN = false :=
    fun r hr => hnan r (List.mem_append_left _ hr)
  have hlast : (flowLog, d) ∈ recs ++ [(flowLog, d)] :=
    List.mem_append_right _ (List.mem_singleton_self _)
  obtain ⟨o, ho⟩ := hres _ hlast
  have hnan₂ := hnan _ hlast
  obtain ⟨conn, hadd, hfresh⟩ := addField_fresh agg conn₀
  obtain ⟨c₁, hrun, hfin⟩ := updateAll_fold ConvertToFloat64 agg recs conn hres₁
  obtain ⟨c₂, log, hu, hval, hframe⟩ :=
    update_newValueFn ConvertToFloat64 agg flowLog d o ho c₁
  refine ⟨conn, c₁, c₂, log, hadd, hrun, hu, fun d' out hd' => ?_⟩
  have hvals := validValues_not_nan ConvertToFloat64 agg.base out recs hnan₁
  have h₁ : c₁.aggFields out =
      some ((recs.filter (fun r => agg.base.attributes out r.2)).foldl
        (fun a r => agg.newValueFn ConvertToFloat64 r.1 a) agg.base.initVal) := by
    rw [hfin out, hfresh d' out hd']
    rfl
  have h₂ : c₂.aggFields out =
      some (if o = out then
        agg.newValueFn ConvertToFloat64 flowLog
          ((recs.filter (fun r => agg.base.attributes out r.2)).foldl
            (fun a r => agg.newValueFn ConvertToFloat64 r.1 a) agg.base.initVal)
        else (recs.filter (fun r => agg.base.attributes out r.2)).foldl
          (fun a r => agg.newValueFn ConvertToFloat64 r.1 a) agg.base.initVal) := by
    by_cases hout : o = out
    · subst hout
      rw [hval, h₁]
      simp
    · rw [hframe out (fun h => hout h.symm), h₁]
      simp [hout]
  refine ⟨_, _, h₁, h₂, ?_, ?_⟩
  · intro hop
    obtain ⟨a, rfl, hinit⟩ := NewAggregator_ok_min of _ hnew hop
    simp only [aggregator.base] at hvals hnan₂ ⊢
    obtain ⟨hf, hle, hmem, hall⟩ := Float64.foldl_Min_MaxFloat64 _ hvals
    rw [min_foldl_newValueFn, hinit]
    refine ⟨?_, hle, hmem, hall⟩
    by_cases hout : o = out
    · simp only [hout, if_true]
      exact min_newValueFn_le ConvertToFloat64 a flowLog _ hf hnan₂
    · simp only [hout, if_false]
      exact (Float64.le_iff_key _ _ hf hf).2 (le_refl _)
  · intro hop
    obtain ⟨a, rfl, hinit⟩ := NewAggregator_ok_max of _ hnew hop
    simp only [aggregator.base] at hvals hnan₂ ⊢
    obtain ⟨hf, hle, hmem, hall⟩ := Float64.foldl_Max_neg_MaxFloat64 _ hvals
    rw [max_foldl_newValueFn, hinit]
    refine ⟨?_, hle, hmem, hall⟩
    by_cases hout : o = out
    · simp only [hout, if_true]
      exact max_newValueFn_ge ConvertToFloat64 a flowLog _ hf hnan₂
    · simp only [hout, if_false]
      exact (Float64.le_iff_key _ _ hf hf).2 (le_refl _)

theorem minmax_updateAll_extremum_witness :
    ∃ conn c₁ c₂ log,
      (aggregator.min ⟨⟨"TimeFlowRttNs", "rtt", true, Float64.MaxFloat64⟩⟩).addField
        (emptyConnection "c1") = .ok conn ∧
      (aggregator.min ⟨⟨"TimeFlowRttNs", "rtt", true, Float64.MaxFloat64⟩⟩).updateAll
        Value.ConvertToFloat64 conn
        [(singleField "TimeFlowRttNs" (.float64 Float64.one), .dirAB),
         (singleField "TimeFlowRttNs" (.bool true), .dirAB),
         (singleField "TimeFlowRttNs" (.float64 Float64.zero), .dirBA)] = .ok c₁ ∧
      (aggregator.min ⟨⟨"TimeFlowRttNs", "rtt", true, Float64.MaxFloat64⟩⟩).update
        Value.ConvertToFloat64 c₁
        (singleField "TimeFlowRttNs" (.float64 (Float64.Inf false))) .dirAB = .ok (c₂, log) ∧
      ∃ a₁ a₂, c₁.aggFields "rtt_AB" = some a₁ ∧ c₂.aggFields "rtt_AB" = some a₂ ∧
        a₂.le a₁ = true ∧
        a₁ ∈ (⟨"TimeFlowRttNs", "rtt", true, Float64.MaxFloat64⟩ : aggregateBase).validValues
          Value.ConvertToFloat64 "rtt_AB"
          [(singleField "TimeFlowRttNs" (.float64 Float64.one), .dirAB),
           (singleField "TimeFlowRttNs" (.bool true), .dirAB),
           (singleField "TimeFlowRttNs" (.float64 Float64.zero), .dirBA)] :=
  let ⟨conn, c₁, c₂, log, h1, h2, h3, h4⟩ := minmax_updateAll_extremum
    Value.ConvertToFloat64 ⟨"rtt", true, "min", "TimeFlowRttNs"⟩
    (.min ⟨⟨"TimeFlowRttNs", "rtt", true, Float64.MaxFloat64⟩⟩) (emptyConnection "c1")
    [(singleField "TimeFlowRttNs" (.float64 Float64.one), .dirAB),
     (singleField "TimeFlowRttNs" (.bool true), .dirAB),
     (singleField "TimeFlowRttNs" (.float64 Float64.zero), .dirBA)]
    (singleField "TimeFlowRttNs" (.float64 (Float64.Inf false))) .dirAB
    rfl
    (by
      intro r hr
      simp only [List.mem_append, List.mem_cons, List.mem_singleton, List.not_mem_nil,
        or_false] at hr
      rcases hr with (rfl | rfl | rfl) | rfl <;> exact ⟨_, rfl⟩)
    (by
      intro r hr v hv
      simp only [List.mem_append, List.mem_cons, List.mem_singleton, List.not_mem_nil,
        or_false] at hr
      rcases hr with (rfl | rfl | rfl) | rfl <;>
        simp [aggregator.base, aggregateBase.getInputFieldValue, singleField,
          Value.ConvertToFloat64] at hv <;>
        subst hv <;> rfl)
  let ⟨a₁, a₂, h5, h6, hmin, _⟩ := h4 .dirAB "rtt_AB" rfl
  ⟨conn, c₁, c₂, log, h1, h2, h3, a₁, a₂, h5, h6, (hmin rfl).1,
    (hmin rfl).2.2.1 ⟨Float64.one, List.mem_singleton_self _, by decide⟩⟩

/-!
## The extract path across batches
-/

set_option exponentiation.threshold 5000 in
/-- C15 (as stated, at a concrete input): `NewExtractAggregate` accepts the
configuration of two sum definitions over `bytes` by `service` that are both
named `bandwidth`, and the first `Extract` call of the extractor is given the
single record `{"service": "http", "bytes": 10}`.  The group `http` holds this
one record, whose input value is 10; the two records the call emits for the
name `bandwidth` and the group `http` carry the value 20 and the count 2. -/
theorem Extract_shared_name_value :
    NewExtractAggregate
        [⟨"bandwidth", ["service"], "sum", "bytes"⟩,
         ⟨"bandwidth", ["service"], "sum", "bytes"⟩] =
      .ok ⟨[(⟨"bandwidth", ["service"], "sum", "bytes"⟩,
              .sum ⟨⟨"bytes", "bandwidth", false, Float64.zero⟩⟩),
            (⟨"bandwidth", ["service"], "sum", "bytes"⟩,
              .sum ⟨⟨"bytes", "bandwidth", false, Float64.zero⟩⟩)],
            fun _ => none⟩ ∧
    (groupRecords TestValue.keyText ⟨"bandwidth", ["service"], "sum", "bytes"⟩
        ("bandwidth", "http") [serviceBytes .http 0x4024000000000000]).filterMap
        (fun r => ((⟨"bytes", "bandwidth", false, Float64.zero⟩ :
          aggregateBase).getInputFieldValue TestValue.ConvertToFloat64 r).toOption) =
      [Float64frombits 0x4024000000000000] ∧
    (ExtractAggregate.Extract TestValue.ConvertToFloat64 TestValue.keyText
        ⟨[(⟨"bandwidth", ["service"], "sum", "bytes"⟩,
            .sum ⟨⟨"bytes", "bandwidth", false, Float64.zero⟩⟩),
          (⟨"bandwidth", ["service"], "sum", "bytes"⟩,
            .sum ⟨⟨"bytes", "bandwidth", false, Float64.zero⟩⟩)],
          fun _ => none⟩
        [serviceBytes .http 0x4024000000000000]).2 =
      [⟨"bandwidth", "bytes", "service", "http", "sum", Float64frombits 0x4034000000000000,
          ("bandwidth_value", Float64frombits 0x4034000000000000),
          [Float64frombits 0x4024000000000000, Float64frombits 0x4024000000000000], 2⟩,
       ⟨"bandwidth", "bytes", "service", "http", "sum", Float64frombits 0x4034000000000000,
          ("bandwidth_value", Float64frombits 0x4034000000000000),
          [Float64frombits 0x4024000000000000, Float64frombits 0x4024000000000000], 2⟩] ∧
    Float64frombits 0x4034000000000000 ≠ Float64frombits 0x4024000000000000 := by
  refine ⟨rfl, by decide, by decide, by decide⟩

/-- C15 (amended): on the extract path, an extractor built by
`NewExtractAggregate` from definitions with pairwise distinct names has gone
through the batches `prev` in successive `Extract` calls and is given `batch`.
Every record this call emits for the definition `d` and the group `g` carries
as `count` the number of records of the group in all the batches so far, and
its field `<name>_value` holds the same number as its field `value`; for a sum
definition this value is the float64 sum, in arrival order from 0, of the input
values of the group's records in all the batches so far, and for a count
definition it is 0 incremented by 1 once for each of these records.  Such a
record is emitted as soon as the batch holds a record of the group. -/
theorem Extract_value_cumulative {V : Type} (ConvertToFloat64 : V → Option Float64)
    (keyText : V → String) (defs : List Definition) (ea₀ : ExtractAggregate)
    (prev : List (List (GenericMap V))) (batch : List (GenericMap V))
    (d : Definition) (g : String) (agg : aggregator)
    (hnew : NewExtractAggregate defs = .ok ea₀)
    (hnodup : (defs.map Definition.Name).Nodup)
    (hd : d ∈ defs)
    (hagg : NewAggregator d.toOutputField = .ok agg) :
    (∀ o ∈ ((ea₀.ExtractAll ConvertToFloat64 keyText prev).Extract
          ConvertToFloat64 keyText batch).2,
      o.name = d.Name → o.aggregate = g →
      o.count = (groupRecords keyText d (d.Name, g) (prev.flatten ++ batch)).length ∧
      o.name_value = (d.Name ++ "_value", o.value) ∧
      (d.Operation = "sum" →
        o.value =
          ((groupRecords keyText d (d.Name, g) (prev.flatten ++ batch)).filterMap
            (fun r => (agg.base.getInputFieldValue ConvertToFloat64 r).toOption)).foldl
            (fun a v => a + v) Float64.zero) ∧
      (d.Operation = "count" →
        o.value =
          (fun curr => curr + Float64.one)^[
            (groupRecords keyText d (d.Name, g) (prev.flatten ++ batch)).length]
            Float64.zero)) ∧
    ((∃ r ∈ batch, groupKey keyText d r = some (d.Name, g)) →
      ∃ o ∈ ((ea₀.ExtractAll ConvertToFloat64 keyText prev).Extract
          ConvertToFloat64 keyText batch).2,
        o.name = d.Name ∧ o.aggregate = g) := by
  obtain ⟨agg', hagg', hall, hex⟩ := Extract_emitted ConvertToFloat64 keyText defs ea₀ prev
    batch d g hnew hnodup hd
  have heq : agg' = agg := by
    rw [hagg] at hagg'
    exact (Except.ok.inj hagg').symm
  subst heq
  refine ⟨?_, ?_⟩
  · intro o ho hname hgrp
    rw [hall o ho hname hgrp]
    refine ⟨rfl, rfl, ?_, ?_⟩
    · intro hop
      obtain ⟨a, rfl, hinit⟩ := NewAggregator_ok_sum _ _ hagg hop
      simp only [synthesize, aggregator.base]
      rw [sum_foldl_newValueFn_records, hinit]
    · intro hop
      obtain ⟨a, rfl, hinit⟩ := NewAggregator_ok_count _ _ hagg hop
      simp only [synthesize, aggregator.base]
      rw [count_foldl_newValueFn_records, hinit]
  · intro hrec
    exact ⟨_, hex (groupRecords_ne_nil keyText d _ batch hrec), rfl, rfl⟩

set_option exponentiation.threshold 5000 in
theorem Extract_value_cumulative_witness :
    (∃ o ∈ ((ExtractAggregate.ExtractAll TestValue.ConvertToFloat64 TestValue.keyText
          ⟨[(⟨"bandwidth", ["service"], "sum", "bytes"⟩,
              .sum ⟨⟨"bytes", "bandwidth", false, Float64.zero⟩⟩),
            (⟨"bandwidth_count", ["service"], "count", ""⟩,
              .count ⟨⟨"bandwidth_count", "bandwidth_count", false, Float64.zero⟩⟩)],
            fun _ => none⟩ []).Extract
          TestValue.ConvertToFloat64 TestValue.keyText batch1).2,
      o.name = "bandwidth" ∧ o.aggregate = "http" ∧ o.count = 2 ∧
        o.value = Float64frombits 0x403E000000000000 ∧
        o.name_value = ("bandwidth_value", Float64frombits 0x403E000000000000)) ∧
    (∃ o ∈ ((ExtractAggregate.ExtractAll TestValue.ConvertToFloat64 TestValue.keyText
          ⟨[(⟨"bandwidth", ["service"], "sum", "bytes"⟩,
              .sum ⟨⟨"bytes", "bandwidth", false, Float64.zero⟩⟩),
            (⟨"bandwidth_count", ["service"], "count", ""⟩,
              .count ⟨⟨"bandwidth_count", "bandwidth_count", false, Float64.zero⟩⟩)],
            fun _ => none⟩ [batch1]).Extract
          TestValue.ConvertToFloat64 TestValue.keyText batch2).2,
      o.name = "bandwidth" ∧ o.aggregate = "http" ∧ o.count = 3 ∧
        o.value = Float64frombits 0x404E000000000000 ∧
        o.name_value = ("bandwidth_value", Float64frombits 0x404E000000000000)) := by
  constructor
  · obtain ⟨hall, hex⟩ := Extract_value_cumulative TestValue.ConvertToFloat64
      TestValue.keyText testDefinitions _ [] batch1
      ⟨"bandwidth", ["service"], "sum", "bytes"⟩ "http"
      (.sum ⟨⟨"bytes", "bandwidth", false, Float64.zero⟩⟩)
      rfl (by decide) (by decide) rfl
    obtain ⟨o, ho, hn, hg⟩ :=
      hex ⟨serviceBytes .http 0x4024000000000000, List.mem_cons_self _ _, rfl⟩
    obtain ⟨hc, hnv, hs, -⟩ := hall o ho hn hg
    have hval : o.value = Float64frombits 0x403E000000000000 := (hs rfl).trans (by decide)
    exact ⟨o, ho, hn, hg, hc.trans (by decide), hval, hnv.trans (by rw [hval]; rfl)⟩
  · obtain ⟨hall, hex⟩ := Extract_value_cumulative TestValue.ConvertToFloat64
      TestValue.keyText testDefinitions _ [batch1] batch2
      ⟨"bandwidth", ["service"], "sum", "bytes"⟩ "http"
      (.sum ⟨⟨"bytes", "bandwidth", false, Float64.zero⟩⟩)
      rfl (by decide) (by decide) rfl
    obtain ⟨o, ho, hn, hg⟩ :=
      hex ⟨serviceBytes .http 0x403E000000000000, List.mem_cons_self _ _, rfl⟩
    obtain ⟨hc, hnv, hs, -⟩ := hall o ho hn hg
    have hval : o.value = Float64frombits 0x404E000000000000 := (hs rfl).trans (by decide)
    exact ⟨o, ho, hn, hg, hc.trans (by decide), hval, hnv.trans (by rw [hval]; rfl)⟩

set_option exponentiation.threshold 5000 in
/-- C16 (as stated, at a concrete input): `NewExtractAggregate` accepts the
configuration of two sum definitions over `bytes` by `service` that are both
named `bandwidth`, and the first `Extract` call of the extractor is given the
single record `{"service": "http", "bytes": 10}`.  The records of the batch in
the group `http` contribute the one value 10; the `recentRawValues` of the two
records the call emits are `[10, 10]`. -/
theorem Extract_shared_name_recentRawValues :
    NewExtractAggregate
        [⟨"bandwidth", ["service"], "sum", "bytes"⟩,
         ⟨"bandwidth", ["service"], "sum", "bytes"⟩] =
      .ok ⟨[(⟨"bandwidth", ["service"], "sum", "bytes"⟩,
              .sum ⟨⟨"bytes", "bandwidth", false, Float64.zero⟩⟩),
            (⟨"bandwidth", ["service"], "sum", "bytes"⟩,
              .sum ⟨⟨"bytes", "bandwidth", false, Float64.zero⟩⟩)],
            fun _ => none⟩ ∧
    (groupRecords TestValue.keyText ⟨"bandwidth", ["service"], "sum", "bytes"⟩
        ("bandwidth", "http") [serviceBytes .http 0x4024000000000000]).filterMap
        ((aggregator.sum ⟨⟨"bytes", "bandwidth", false, Float64.zero⟩⟩).valueUsed
          TestValue.ConvertToFloat64) =
      [Float64frombits 0x4024000000000000] ∧
    ((ExtractAggregate.Extract TestValue.ConvertToFloat64 TestValue.keyText
        ⟨[(⟨"bandwidth", ["service"], "sum", "bytes"⟩,
            .sum ⟨⟨"bytes", "bandwidth", false, Float64.zero⟩⟩),
          (⟨"bandwidth", ["service"], "sum", "bytes"⟩,
            .sum ⟨⟨"bytes", "bandwidth", false, Float64.zero⟩⟩)],
          fun _ => none⟩
        [serviceBytes .http 0x4024000000000000]).2.map
        (fun o => (o.name, o.aggregate, o.recentRawValues))) =
      [("bandwidth", "http",
          [Float64frombits 0x4024000000000000, Float64frombits 0x4024000000000000]),
       ("bandwidth", "http",
          [Float64frombits 0x4024000000000000, Float64frombits 0x4024000000000000])] := by
  refine ⟨rfl, by decide, by decide⟩

/-- C16 (amended): on the extract path, an extractor built by
`NewExtractAggregate` from definitions with pairwise distinct names has gone
through the batches `prev` in successive `Extract` calls and is given `batch`.
Every record this call emits
for the definition `d` and the group `g` carries as `recentRawValues` the values
used for the records of `batch` in the group, in arrival order, whatever the
earlier batches held: for a sum definition the input values of these records,
for a count definition a sentinel 1 for each of them.  Such a record is emitted
as soon as the batch holds a record of the group. -/
theorem Extract_recentRawValues {V : Type} (ConvertToFloat64 : V → Option Float64)
    (keyText : V → String) (defs : List Definition) (ea₀ : ExtractAggregate)
    (prev : List (List (GenericMap V))) (batch : List (GenericMap V))
    (d : Definition) (g : String) (agg : aggregator)
    (hnew : NewExtractAggregate defs = .ok ea₀)
    (hnodup : (defs.map Definition.Name).Nodup)
    (hd : d ∈ defs)
    (hagg : NewAggregator d.toOutputField = .ok agg) :
    (∀ o ∈ ((ea₀.ExtractAll ConvertToFloat64 keyText prev).Extract
          ConvertToFloat64 keyText batch).2,
      o.name = d.Name → o.aggregate = g →
      o.recentRawValues =
        (groupRecords keyText d (d.Name, g) batch).filterMap
          (agg.valueUsed ConvertToFloat64) ∧
      (d.Operation = "sum" →
        o.recentRawValues =
          (groupRecords keyText d (d.Name, g) batch).filterMap
            (fun r => (agg.base.getInputFieldValue ConvertToFloat64 r).toOption)) ∧
      (d.Operation = "count" →
        o.recentRawValues =
          List.replicate (groupRecords keyText d (d.Name, g) batch).length Float64.one)) ∧
    ((∃ r ∈ batch, groupKey keyText d r = some (d.Name, g)) →
      ∃ o ∈ ((ea₀.ExtractAll ConvertToFloat64 keyText prev).Extract
          ConvertToFloat64 keyText batch).2,
        o.name = d.Name ∧ o.aggregate = g) := by
  obtain ⟨agg', hagg', hall, hex⟩ := Extract_emitted ConvertToFloat64 keyText defs ea₀ prev
    batch d g hnew hnodup hd
  have heq : agg' = agg := by
    rw [hagg] at hagg'
    exact (Except.ok.inj hagg').symm
  subst heq
  refine ⟨?_, ?_⟩
  · intro o ho hname hgrp
    rw [hall o ho hname hgrp]
    refine ⟨rfl, ?_, ?_⟩
    · intro hop
      obtain ⟨a, rfl, -⟩ := NewAggregator_ok_sum _ _ hagg hop
      rfl
    · intro hop
      obtain ⟨a, rfl, -⟩ := NewAggregator_ok_count _ _ hagg hop
      simp only [synthesize]
      exact filterMap_valueUsed_count ConvertToFloat64 a _
  · intro hrec
    exact ⟨_, hex (groupRecords_ne_nil keyText d _ batch hrec), rfl, rfl⟩

theorem Extract_recentRawValues_witness :
    ∃ o ∈ ((ExtractAggregate.ExtractAll TestValue.ConvertToFloat64 TestValue.keyText
          ⟨[(⟨"bandwidth", ["service"], "sum", "bytes"⟩,
              .sum ⟨⟨"bytes", "bandwidth", false, Float64.zero⟩⟩),
            (⟨"bandwidth_count", ["service"], "count", ""⟩,
              .count ⟨⟨"bandwidth_count", "bandwidth_count", false, Float64.zero⟩⟩)],
            fun _ => none⟩ [batch1]).Extract
          TestValue.ConvertToFloat64 TestValue.keyText batch2).2,
      o.name = "bandwidth" ∧ o.aggregate = "tcp" ∧
        o.recentRawValues =
          [Float64frombits 0x4010000000000000, Float64frombits 0x4014000000000000] := by
  obtain ⟨hall, hex⟩ := Extract_recentRawValues TestValue.ConvertToFloat64
    TestValue.keyText testDefinitions _ [batch1] batch2
    ⟨"bandwidth", ["service"], "sum", "bytes"⟩ "tcp"
    (.sum ⟨⟨"bytes", "bandwidth", false, Float64.zero⟩⟩)
    rfl (by decide) (by decide) rfl
  obtain ⟨o, ho, hn, hg⟩ :=
    hex ⟨serviceBytes .tcp 0x4010000000000000,
      List.mem_cons_of_mem _ (List.mem_cons_self _ _), rfl⟩
  obtain ⟨-, hs, -⟩ := hall o ho hn hg
  exact ⟨o, ho, hn, hg, (hs rfl).trans (by decide)⟩

end Conntrack
